import Mathlib

set_option maxRecDepth 8000

/-!
Verification of the audio-transcription pipeline of AibaPM-Notes.

This file shallowly embeds the core of the pipeline:

* the whisper transcription service (`transcription.js`): error
  classification (`checkAPIQuotaError`), single-file transcription error
  mapping, per-chunk retry with exponential backoff (`transcribeChunks`),
  transcript merging (`mergeTranscripts`), and the top-level
  `transcribeWithRetry` with its direct-vs-chunking decision and the single
  re-chunk at 300 seconds;
* the audio chunker (`audioChunker.js`): the chunk planner
  (`splitIntoChunks`) and the chunk-duration choice of `processLargeAudio`;
* the meeting route orchestration (`meetings.js`): `calculateTimeout` and
  the failure-recording behaviour of `processMeeting` under its
  `withTimeout` (a promise race that does not cancel the loser).

Numbers that are floating point in JavaScript are modelled as rationals
(exact arithmetic); strings are modelled as lists of characters.  External
effects (the HTTP transcription call, ffmpeg, the database) are modelled as
explicit oracle parameters / record-write traces.
-/

/-- Whitespace test used to model the JavaScript regular expression `\s`
on the characters that actually occur in transcripts (space, tab, newline,
carriage return). -/
def isWs (c : Char) : Bool :=
  c == ' ' || c == '\t' || c == '\n' || c == '\r'

/-- Model of the left half of JavaScript `String.prototype.trim`. -/
def trimLeft (l : List Char) : List Char :=
  l.dropWhile isWs

/-- Model of the right half of JavaScript `String.prototype.trim`. -/
def trimRight (l : List Char) : List Char :=
  ((l.reverse).dropWhile isWs).reverse

/-- Model of JavaScript `String.prototype.trim`: drop whitespace at both
ends. -/
def trim (l : List Char) : List Char :=
  trimRight (trimLeft l)

/-- One-pass state machine modelling `replace(/\s+/g, ' ')`: the boolean
records whether the previous character was part of a whitespace run that
has already emitted its single space. -/
def collapseGo : Bool → List Char → List Char
  | _, [] => []
  | prevWs, c :: rest =>
    if isWs c then
      if prevWs then collapseGo true rest else ' ' :: collapseGo true rest
    else c :: collapseGo false rest

/-- Model of `replace(/\s+/g, ' ')`: collapse every whitespace run to a
single space. -/
def collapseWs (l : List Char) : List Char :=
  collapseGo false l

/-- Model of `fullText.trim().replace(/\s+/g, ' ')` from
`mergeTranscripts` in `transcription.js`. -/
def wsNormalize (l : List Char) : List Char :=
  collapseWs (trim l)

/-- The maximal whitespace-free words of a character list, in order.  Used
as a normal form for reasoning about `wsNormalize`. -/
def wordsOf : List Char → List (List Char)
  | [] => []
  | c :: rest =>
    if isWs c then wordsOf rest
    else (c :: rest.takeWhile (fun d => !(isWs d))) ::
      wordsOf (rest.dropWhile (fun d => !(isWs d)))
termination_by l => l.length
decreasing_by
  · simp only [List.length_cons]; omega
  · simp only [List.length_cons]
    have key : ∀ (l : List Char), (l.dropWhile (fun d => !(isWs d))).length ≤ l.length := by
      intro l
      induction l with
      | nil => simp
      | cons d tail ih =>
        cases hp : isWs d <;> simp [List.dropWhile_cons, hp] <;> omega
    exact Nat.lt_succ_of_le (key rest)

/-- Join a list of words with single spaces. -/
def joinW : List (List Char) → List Char
  | [] => []
  | [w] => w
  | w :: ws => w ++ ' ' :: joinW ws

/-- Join a list of words with single spaces, prepending a separating space
when the list is non-empty (the shape produced behind the first word of a
line). -/
def joinTail : List (List Char) → List Char
  | [] => []
  | ws => ' ' :: joinW ws

/-- Texts concatenated in order with a single intervening space, the
reading of the description of merged transcript text in the specification. -/
def sepBySpace : List (List Char) → List Char
  | [] => []
  | [t] => t
  | t :: ts => t ++ ' ' :: sepBySpace ts

/-- A recognised speech segment as returned by the transcription API:
`stop` models the field called end in the source (a Lean keyword). -/
@[ext] structure TrSegment where
  start : ℚ
  stop : ℚ
  text : List Char
deriving DecidableEq, Repr

/-- A transcription result (`{text, language, duration, segments}`), the
shape returned both by `transcribeSingleFile` and by `mergeTranscripts`. -/
@[ext] structure Transcription where
  text : List Char
  language : List Char
  duration : ℚ
  segments : List TrSegment
deriving DecidableEq, Repr

/-- One chunk plan entry produced by `splitIntoChunks` in
`audioChunker.js`.  `startTime`/`endTime` are the logical window;
`seekStart`/`seekDuration` describe the materialized (overlap-widened)
audio range handed to ffmpeg.  The file path and measured size are
filesystem effects and are not modelled. -/
@[ext] structure ChunkEntry where
  index : ℕ
  startTime : ℚ
  endTime : ℚ
  duration : ℚ
  seekStart : ℚ
  seekDuration : ℚ
deriving DecidableEq, Repr

/-- A per-chunk transcription result as accumulated by
`transcribeChunks`. -/
@[ext] structure ChunkResult where
  chunk : ChunkEntry
  transcription : Transcription
deriving DecidableEq, Repr

/-- `CHUNK_DURATION_SECONDS` from `audioChunker.js`. -/
def CHUNK_DURATION_SECONDS : ℚ := 600

/-- `CHUNK_OVERLAP_SECONDS` from `audioChunker.js`. -/
def CHUNK_OVERLAP_SECONDS : ℚ := 2

/-- `TARGET_SIZE_MB` from `audioChunker.js`. -/
def TARGET_SIZE_MB : ℚ := 24

/-- `SIZE_THRESHOLD_MB` from `transcription.js`. -/
def SIZE_THRESHOLD_MB : ℚ := 24

/-- `MAX_RETRIES` from `transcribeChunks` in `transcription.js`. -/
def MAX_RETRIES : ℕ := 5

/-- The body of the `while (startTime < durationSeconds)` loop of
`splitIntoChunks`, with the loop state (current `startTime`, current
chunk index) passed explicitly.  The `fuel` argument is only an upper
bound on the number of iterations used to make the recursion structural;
`splitIntoChunks` supplies enough fuel for every positive chunk duration
(for a non-positive chunk duration the JavaScript loop would not
terminate). -/
def splitGo (durationSeconds chunkDuration : ℚ) : ℕ → ℚ → ℕ → List ChunkEntry
  | 0, _, _ => []
  | fuel + 1, startTime, chunkIndex =>
    if startTime < durationSeconds then
      let endTime := min (startTime + chunkDuration) durationSeconds
      let actualDuration := endTime - startTime
      { index := chunkIndex
        startTime := startTime
        endTime := endTime
        duration := actualDuration
        seekStart :=
          if chunkIndex > 0 then max 0 (startTime - CHUNK_OVERLAP_SECONDS) else startTime
        seekDuration :=
          actualDuration + (if chunkIndex > 0 then CHUNK_OVERLAP_SECONDS else 0) } ::
      splitGo durationSeconds chunkDuration fuel (startTime + chunkDuration) (chunkIndex + 1)
    else []

/-- Model of `splitIntoChunks(wavPath, durationSeconds, chunkDuration)`
from `audioChunker.js` (the ffmpeg extraction of each window is an
external effect and not modelled; the entry records the logical window and
the materialized seek range). -/
def splitIntoChunks (durationSeconds : ℚ) (chunkDuration : ℚ) : List ChunkEntry :=
  splitGo durationSeconds chunkDuration (⌈durationSeconds / chunkDuration⌉₊ + 1) 0 0

/-- Timestamp shift applied by `mergeTranscripts` to a segment of a chunk
starting at `offset`. -/
def shiftSegment (offset : ℚ) (s : TrSegment) : TrSegment :=
  { s with start := s.start + offset, stop := s.stop + offset }

/-- Model of `mergeTranscripts(chunkResults)` from `transcription.js`:
concatenate texts with a trailing space each and normalize whitespace,
shift the segments of each chunk by the logical `startTime` of the chunk,
take the running maximum of `endTime` as the duration, and take the first
language (the JavaScript or-default to en treats an absent first result or
an empty language string as falsy). -/
def mergeTranscripts (chunkResults : List ChunkResult) : Transcription :=
  let fullText :=
    chunkResults.foldl (fun acc r => acc ++ r.transcription.text ++ [' ']) []
  let language :=
    match chunkResults with
    | [] => ("en").toList
    | r :: _ =>
      if r.transcription.language = [] then ("en").toList else r.transcription.language
  let allSegments :=
    chunkResults.foldl
      (fun acc r => acc ++ r.transcription.segments.map (shiftSegment r.chunk.startTime)) []
  let totalDuration :=
    chunkResults.foldl (fun acc r => max acc r.chunk.endTime) 0
  { text := wsNormalize fullText
    language := language
    duration := totalDuration
    segments := allSegments }

/-- Wraps an intermediate merged transcript as a chunk-of-one whose window
starts at time zero, so that it can be fed back into `mergeTranscripts`;
this is the natural reading of the phrase "merging chunks
`[0..k]` then merging the result with chunks `[k+1..n]`". -/
def mergedAsChunkResult (m : Transcription) : ChunkResult :=
  { chunk :=
      { index := 0, startTime := 0, endTime := m.duration, duration := m.duration
        seekStart := 0, seekDuration := m.duration }
    transcription := m }

/-- An error thrown by the external transcription API call, as consumed by
`checkAPIQuotaError`: the optional HTTP status, the optional provider error
code, and the message string. -/
structure ApiError where
  status : Option ℕ
  code : Option (List Char)
  message : List Char
deriving DecidableEq, Repr

/-- The user-facing message produced for HTTP 429. -/
def rateLimitMsg : List Char :=
  ("OpenAI API rate limit exceeded. Please wait a few minutes and try \"Reprocess Meeting\"").toList

/-- The user-facing message produced for HTTP 401. -/
def invalidKeyMsg : List Char :=
  ("OpenAI API key is invalid or expired. Please check your .env file").toList

/-- The user-facing message produced for HTTP 402 / `insufficient_quota`. -/
def insufficientCreditsMsg : List Char :=
  ("OpenAI account has insufficient credits. Please add credits at platform.openai.com/account/billing").toList

/-- The user-facing message produced for a message containing `quota`. -/
def quotaKeywordMsg : List Char :=
  ("OpenAI API quota exceeded. Check your usage at platform.openai.com/account/usage").toList

/-- The user-facing message produced for a message containing `billing`. -/
def billingKeywordMsg : List Char :=
  ("OpenAI billing issue detected. Please check platform.openai.com/account/billing").toList

/-- The sentinel message for an oversized payload. -/
def payloadTooLargeMsg : List Char :=
  ("PAYLOAD_TOO_LARGE").toList

/-- The sentinel message thrown by `transcribeChunks` to request
re-chunking. -/
def rechunkNeededMsg : List Char :=
  ("RECHUNK_NEEDED").toList

/-- Model of `checkAPIQuotaError(error)` from `transcription.js`: maps
quota/billing-class API failures to user-friendly messages, in the
test order of the source. -/
def checkAPIQuotaError (e : ApiError) : Option (List Char) :=
  if e.status = some 429 then some rateLimitMsg
  else if e.status = some 401 then some invalidKeyMsg
  else if e.status = some 402 ∨ e.code = some (("insufficient_quota").toList) then
    some insufficientCreditsMsg
  else if (("quota").toList : List Char) <:+: e.message then some quotaKeywordMsg
  else if (("billing").toList : List Char) <:+: e.message then some billingKeywordMsg
  else none

/-- The message of the error thrown by the catch block of
`transcribeSingleFile`: quota/billing classification first, then the
413 / payload-too-large check, otherwise a generic wrapper around the
original message. -/
def mapTranscribeError (e : ApiError) : List Char :=
  match checkAPIQuotaError e with
  | some m => m
  | none =>
    if e.status = some 413 ∨ (("413").toList : List Char) <:+: e.message then payloadTooLargeMsg
    else ("Failed to transcribe audio: ").toList ++ e.message

/-- Model of `transcribeSingleFile`: the underlying API call is an oracle
outcome; a successful call is returned as-is, a failing call throws the
mapped message. -/
def transcribeSingleFile (call : Except ApiError Transcription) :
    Except (List Char) Transcription :=
  match call with
  | .ok t => .ok t
  | .error e => .error (mapTranscribeError e)

/-- The terminal state of the per-chunk retry loop of `transcribeChunks`:
success, the loop-local `retryWithSmallerChunks` flag, or exhaustion of
the five retries. -/
inductive RetryCore where
  | success (t : Transcription)
  | rechunk
  | exhausted
deriving DecidableEq, Repr

/-- The exponential backoff delay in milliseconds awaited before retry
attempt `attempt`: `Math.pow(2, attempt) * 2500`. -/
def backoffDelay (attempt : ℕ) : ℕ := 2 ^ attempt * 2500

/-- The message of the error thrown by `transcribeChunks` when the retry
budget for the chunk with index `chunkIndex` is exhausted. -/
def exhaustMsg (chunkIndex : ℕ) : List Char :=
  ("Failed to transcribe chunk ").toList ++ (Nat.repr chunkIndex).toList ++
    (" after 5 retries. This may be due to network instability or OpenAI API issues. Try again later or check your internet connection.").toList

/-- The retry loop `for (attempt = 1; attempt <= MAX_RETRIES; attempt++)`
of `transcribeChunks`, for one chunk.  `oracle k` is the outcome of the
API call made on attempt `k`; the second argument counts the remaining
attempts.  Each iteration awaits `backoffDelay attempt` and then calls
`transcribeSingleFile`; the returned list collects the delays actually
awaited, so its length is the number of retry calls made. -/
def retryAux (oracle : ℕ → Except ApiError Transcription) :
    ℕ → ℕ → List ℕ × RetryCore
  | _, 0 => ([], .exhausted)
  | attempt, n + 1 =>
    let d := backoffDelay attempt
    match transcribeSingleFile (oracle attempt) with
    | .ok t => ([d], .success t)
    | .error m =>
      if m = payloadTooLargeMsg then ([d], .rechunk)
      else
        let r := retryAux oracle (attempt + 1) n
        (d :: r.1, r.2)

/-- The observable outcome of driving one chunk through the body of the
`for` loop of `transcribeChunks`: the terminal outcome, the total number
of `transcribeSingleFile` calls made for the chunk, and the backoff
delays awaited. -/
inductive ChunkOutcome where
  | success (t : Transcription)
  | rechunk
  | fatal (msg : List Char)
deriving DecidableEq, Repr

/-- Outcome record for one chunk of `transcribeChunks`. -/
structure ChunkDriveOut where
  outcome : ChunkOutcome
  calls : ℕ
  delays : List ℕ
deriving DecidableEq, Repr

/-- One iteration of the chunk loop of `transcribeChunks`: the initial
`transcribeSingleFile` call, then — unless the failure is the
payload-too-large sentinel, which sets `retryWithSmallerChunks` and breaks
— the five-attempt backoff loop; if the loop ends with neither a success
nor the re-chunk flag, the chunk-identifying exhaustion error is thrown. -/
def driveChunk (oracle : ℕ → Except ApiError Transcription) (chunkIndex : ℕ) :
    ChunkDriveOut :=
  match transcribeSingleFile (oracle 0) with
  | .ok t => { outcome := .success t, calls := 1, delays := [] }
  | .error m =>
    if m = payloadTooLargeMsg then { outcome := .rechunk, calls := 1, delays := [] }
    else
      let r := retryAux oracle 1 MAX_RETRIES
      { outcome :=
          match r.2 with
          | .success t => .success t
          | .rechunk => .rechunk
          | .exhausted => .fatal (exhaustMsg chunkIndex)
        calls := 1 + r.1.length
        delays := r.1 }

/-- The chunk loop of `transcribeChunks`, iterating the chunk list in
order; `pos` is the loop position used to index the oracle family.  A
re-chunk outcome throws `RECHUNK_NEEDED` (discarding accumulated
results), an exhausted chunk throws its exhaustion error, and otherwise
the per-chunk results are accumulated in order. -/
def transcribeChunksGo (oracle : ℕ → ℕ → Except ApiError Transcription) :
    ℕ → List ChunkEntry → Except (List Char) (List ChunkResult)
  | _, [] => .ok []
  | pos, c :: rest =>
    match (driveChunk (oracle pos) c.index).outcome with
    | .success t =>
      (transcribeChunksGo oracle (pos + 1) rest).map
        (fun rs => { chunk := c, transcription := t } :: rs)
    | .rechunk => .error rechunkNeededMsg
    | .fatal m => .error m

/-- Model of `transcribeChunks(chunks, progressCallback)` from
`transcription.js` (progress reporting is an external effect and not
modelled). -/
def transcribeChunks (oracle : ℕ → ℕ → Except ApiError Transcription)
    (chunks : List ChunkEntry) : Except (List Char) (List ChunkResult) :=
  transcribeChunksGo oracle 0 chunks

/-- The measurable inputs of one pipeline run: the original file size in
megabytes (as read both by `fs.stat` in `transcribeWithRetry` /
`calculateTimeout` and by ffprobe in `processLargeAudio`), the size of the
converted WAV, and the resolved total duration in seconds. -/
structure AudioEnv where
  sizeMB : ℚ
  wavSizeMB : ℚ
  duration : ℚ
deriving DecidableEq, Repr

/-- The result shape of `processLargeAudio` from `audioChunker.js`: either
the converted WAV is at most `TARGET_SIZE_MB` and no chunking is needed,
or a chunk plan is produced, recording the chunk duration that was used. -/
inductive ProcessedAudio where
  | noChunking (duration : ℚ) (wavSizeMB : ℚ)
  | chunking (duration : ℚ) (wavSizeMB : ℚ) (chunkDuration : ℚ) (chunks : List ChunkEntry)
deriving DecidableEq, Repr

/-- Model of `processLargeAudio(audioPath, meetingId)` from
`audioChunker.js`: conversion itself is an external effect; the decision
structure is kept — no chunking for a WAV at or under 24MB, otherwise a
plan with 300-second chunks when the original file is at least 50MB and
`CHUNK_DURATION_SECONDS` (600) otherwise.  (The error branch for an
unresolvable duration is an external-failure path and is not modelled.) -/

def processLargeAudio (env : AudioEnv) : ProcessedAudio :=
  if env.wavSizeMB ≤ TARGET_SIZE_MB then .noChunking env.duration env.wavSizeMB
  else
    let chunkDuration : ℚ := if env.sizeMB ≥ 50 then 300 else CHUNK_DURATION_SECONDS
    .chunking env.duration env.wavSizeMB chunkDuration
      (splitIntoChunks env.duration chunkDuration)

/-- The oracle describing every outcome the external speech-to-text
service would produce during one `transcribeWithRetry` run: the direct
call on the original file, the direct call on the converted WAV, and the
per-drive (0 = first plan, 1 = re-chunked plan), per-chunk-position,
per-attempt outcomes. -/
structure SttOracle where
  direct : Except ApiError Transcription
  wavDirect : Except ApiError Transcription
  drive : ℕ → ℕ → ℕ → Except ApiError Transcription

deriving instance DecidableEq for Except

/-- The observable result of `transcribeWithRetry`: the chunk durations of
the plans that were actually driven (empty when no chunk plan was driven),
and the returned transcription or thrown error message. -/
structure TwrResult where
  attemptedChunkDurations : List ℚ
  result : Except (List Char) Transcription
deriving DecidableEq, Repr

/-- The chunking branch of `transcribeWithRetry`: process the audio; if no
chunking is needed transcribe the WAV directly; otherwise drive the plan,
and on a thrown `RECHUNK_NEEDED` clean up, re-chunk via
`rechunkWithSmallerSize(wavPath, duration, 300)` (which is
`splitIntoChunks` at 300 seconds) and drive the new plan once, any further
error propagating. -/
def transcribeChunkedPhase (env : AudioEnv) (stt : SttOracle) : TwrResult :=
  match processLargeAudio env with
  | .noChunking _ _ =>
    { attemptedChunkDurations := [], result := transcribeSingleFile stt.wavDirect }
  | .chunking dur _ d0 chunks0 =>
    match transcribeChunks (stt.drive 0) chunks0 with
    | .ok rs => { attemptedChunkDurations := [d0], result := .ok (mergeTranscripts rs) }
    | .error m =>
      if m = rechunkNeededMsg then
        match transcribeChunks (stt.drive 1) (splitIntoChunks dur 300) with
        | .ok rs =>
          { attemptedChunkDurations := [d0, 300], result := .ok (mergeTranscripts rs) }
        | .error m2 =>
          { attemptedChunkDurations := [d0, 300], result := .error m2 }
      else { attemptedChunkDurations := [d0], result := .error m }

/-- Model of `transcribeWithRetry(audioPath, meetingId, progressCallback)`
from `transcription.js`: a file at or under `SIZE_THRESHOLD_MB` is
transcribed directly, falling through to the chunking branch only when the
direct call throws the payload-too-large sentinel; a larger file goes to
the chunking branch immediately. -/
def transcribeWithRetry (env : AudioEnv) (stt : SttOracle) : TwrResult :=
  if env.sizeMB ≤ SIZE_THRESHOLD_MB then
    match transcribeSingleFile stt.direct with
    | .ok t => { attemptedChunkDurations := [], result := .ok t }
    | .error m =>
      if m ≠ payloadTooLargeMsg then { attemptedChunkDurations := [], result := .error m }
      else transcribeChunkedPhase env stt
  else transcribeChunkedPhase env stt

/-- Model of `calculateTimeout(audioPath)` from `meetings.js`, as a
function of the size of the original file in bytes (the `fs.stat` failure
branch, which defaults to ten minutes, is an external-failure path and is
not modelled).  The result is in milliseconds. -/
def calculateTimeout (sizeBytes : ℚ) : ℕ :=
  let fileSizeMB := sizeBytes / (1024 * 1024)
  if fileSizeMB < 10 then 5 * 60 * 1000
  else if fileSizeMB < 30 then 10 * 60 * 1000
  else if fileSizeMB < 50 then 15 * 60 * 1000
  else if fileSizeMB < 80 then 30 * 60 * 1000
  else 45 * 60 * 1000

/-- The meeting row fields touched by the `updateMeeting` calls of
calls.  A transcript slot holding an `ERROR: `-prefixed string is the
error sentinel; `None` means still processing. -/
structure MeetingRow where
  title : List Char
  date : List Char
  duration : ℤ
  audioPath : List Char
  transcriptSlot : Option (List Char)
  summarySlot : Option (List Char)
deriving DecidableEq, Repr

/-- The data a successful pipeline run hands to the step-5 `updateMeeting`
call: the saved transcript path, the saved summary path, and the
transcription duration. -/
structure PipelineSuccess where
  txtPath : List Char
  summaryPath : List Char
  transcriptionDuration : ℚ
deriving DecidableEq, Repr

/-- The step-5 success write of `processMeeting`: stores the floored
duration and the transcript and summary paths, keeping the other fields of
the row it read back. -/
def successRow (row : MeetingRow) (out : PipelineSuccess) : MeetingRow :=
  { row with
    duration := ⌊out.transcriptionDuration⌋
    transcriptSlot := some out.txtPath
    summarySlot := some out.summaryPath }

/-- The catch-block error write of `processMeeting`: duration zero, the
transcript slot overwritten with `ERROR: ` followed by the failure
message, and the summary slot cleared. -/
def errorRow (row : MeetingRow) (msg : List Char) : MeetingRow :=
  { row with
    duration := 0
    transcriptSlot := some (("ERROR: ").toList ++ msg)
    summarySlot := none }

/-- The message of the rejection produced by `withTimeout` for meeting
`meetingId` after `timeoutMs` milliseconds (`timeoutMs` is always a whole
number of seconds in this code, so natural division matches the JavaScript
division). -/
def timeoutMsg (meetingId : ℕ) (timeoutMs : ℕ) : List Char :=
  ("Meeting ").toList ++ (Nat.repr meetingId).toList ++
    (" processing timed out after ").toList ++ (Nat.repr (timeoutMs / 1000)).toList ++
    ("s").toList

/-- Model of `processMeeting(meetingId, audioPath, title, date)` from
`meetings.js` as the ordered list of `updateMeeting` writes it performs on
the meeting row.  `pipelineMs` is the wall-clock time at which the inner
pipeline settles and `pipelineResult` its outcome.  `withTimeout` is
`Promise.race([pipeline, timer])` and does not cancel the loser, so:

* if the pipeline settles within the timeout, the race adopts its outcome
  — a success performs its step-5 write, a failure is caught and performs
  the sentinel write;
* if the timer fires first, the catch block performs the sentinel write
  with the timeout message, but the abandoned pipeline keeps running: a
  late success still performs its step-5 write (after the sentinel), while
  a late failure is an unobserved rejection and writes nothing. -/
def processMeeting (meetingId : ℕ) (sizeBytes : ℚ) (pipelineMs : ℕ)
    (pipelineResult : Except (List Char) PipelineSuccess) (row : MeetingRow) :
    List MeetingRow :=
  let timeoutMs := calculateTimeout sizeBytes
  if pipelineMs ≤ timeoutMs then
    match pipelineResult with
    | .ok out => [successRow row out]
    | .error m => [errorRow row m]
  else
    match pipelineResult with
    | .ok out =>
      [errorRow row (timeoutMsg meetingId timeoutMs),
        successRow (errorRow row (timeoutMsg meetingId timeoutMs)) out]
    | .error _ => [errorRow row (timeoutMsg meetingId timeoutMs)]

/-- The final state of the meeting row after a run of `processMeeting`
whose write trace is `writes`. -/
def finalRow (row : MeetingRow) (writes : List MeetingRow) : MeetingRow :=
  writes.getLastD row

/-- The chunk entry the loop body of `splitIntoChunks` builds from loop
state `(t, k)` (closed form used in proofs). -/
def planEntry (D C t : ℚ) (k : ℕ) : ChunkEntry :=
  { index := k
    startTime := t
    endTime := min (t + C) D
    duration := min (t + C) D - t
    seekStart := if k > 0 then max 0 (t - CHUNK_OVERLAP_SECONDS) else t
    seekDuration := min (t + C) D - t + (if k > 0 then CHUNK_OVERLAP_SECONDS else 0) }

/-- An API error carrying HTTP status 401, as classified by
`checkAPIQuotaError` (used to settle the claim about fatal
classifications). -/
def unauthorizedErr : ApiError :=
  { status := some 401, code := none, message := ("Unauthorized").toList }

/-- An API error carrying HTTP status 402 (insufficient credits). -/
def quotaErr402 : ApiError :=
  { status := some 402, code := none, message := [] }

/-- An API error carrying HTTP status 413, which `transcribeSingleFile`
maps to the payload-too-large sentinel. -/
def payloadTooLargeErr : ApiError :=
  { status := some 413, code := none, message := [] }

/-- An oracle on which every speech-to-text call rejects with HTTP 413. -/
def alwaysTooLargeStt : SttOracle :=
  { direct := .error payloadTooLargeErr
    wavDirect := .error payloadTooLargeErr
    drive := fun _ _ _ => .error payloadTooLargeErr }

/-- A 90MB original recording whose converted WAV is also 90MB, with a
600-second duration. -/
def largeEnv90 : AudioEnv := { sizeMB := 90, wavSizeMB := 90, duration := 600 }

/-- A 40MB original recording whose converted WAV is also 40MB, with a
600-second duration. -/
def mediumEnv40 : AudioEnv := { sizeMB := 40, wavSizeMB := 40, duration := 600 }

/-- A 10MB original recording, under the direct-transcription threshold. -/
def smallEnv10 : AudioEnv := { sizeMB := 10, wavSizeMB := 10, duration := 60 }

/-- A meeting row as it stands while a meeting is processing. -/
def c1Row : MeetingRow :=
  { title := ("Standup").toList, date := ("2025-01-01").toList, duration := 0
    audioPath := ("uploads/a.webm").toList, transcriptSlot := none, summarySlot := none }

/-- The step-5 data of a pipeline that eventually succeeds. -/
def c1Out : PipelineSuccess :=
  { txtPath := ("/storage/transcripts/meeting-7-1.txt").toList
    summaryPath := ("/storage/summaries/meeting-7-1.json").toList
    transcriptionDuration := 1234 }

/-- The raw concatenation `mergeTranscripts` builds before whitespace
normalization: each text followed by one space. -/
def textConcat : List (List Char) → List Char
  | [] => []
  | t :: ts => t ++ ' ' :: textConcat ts

/-- The shifted segments of a list of chunk results, in order. -/
def flatSegs : List ChunkResult → List TrSegment
  | [] => []
  | r :: rs => r.transcription.segments.map (shiftSegment r.chunk.startTime) ++ flatSegs rs

/-- A concrete first chunk result used in witnesses. -/
def wChunkResA : ChunkResult :=
  { chunk := { index := 0, startTime := 0, endTime := 10, duration := 10
               seekStart := 0, seekDuration := 10 }
    transcription := { text := ("hello  there").toList, language := ("en").toList
                       duration := 10
                       segments := [{ start := 0, stop := 4, text := ("hello").toList },
                         { start := 5, stop := 9, text := ("there").toList }] } }

/-- A concrete second chunk result used in witnesses. -/
def wChunkResB : ChunkResult :=
  { chunk := { index := 1, startTime := 10, endTime := 12, duration := 2
               seekStart := 8, seekDuration := 4 }
    transcription := { text := ("bye").toList, language := ("en").toList
                       duration := 4
                       segments := [{ start := 1, stop := 3, text := ("bye").toList }] } }

/-- Chunk entry 0 of the plan for a 22-second recording with 10-second
chunks. -/
def c7chunk0 : ChunkEntry :=
  { index := 0, startTime := 0, endTime := 10, duration := 10
    seekStart := 0, seekDuration := 10 }

/-- Chunk entry 1 of that plan (overlap-widened seek range). -/
def c7chunk1 : ChunkEntry :=
  { index := 1, startTime := 10, endTime := 20, duration := 10
    seekStart := 8, seekDuration := 12 }

/-- Chunk entry 2 of that plan. -/
def c7chunk2 : ChunkEntry :=
  { index := 2, startTime := 20, endTime := 22, duration := 2
    seekStart := 18, seekDuration := 4 }

/-- Chunk 0 heard nothing. -/
def c7res0 : ChunkResult :=
  { chunk := c7chunk0
    transcription := { text := [], language := ("en").toList, duration := 10
                       segments := [] } }

/-- Chunk 1 has a segment transcribed at local time 11 — inside its
materialized audio (length 12) but past its logical 10-second window. -/
def c7res1 : ChunkResult :=
  { chunk := c7chunk1
    transcription := { text := ("late words").toList, language := ("en").toList
                       duration := 12
                       segments := [{ start := 11, stop := 12, text := ("late words").toList }] } }

/-- Chunk 2 has a segment at local time 0. -/
def c7res2 : ChunkResult :=
  { chunk := c7chunk2
    transcription := { text := ("first words").toList, language := ("en").toList
                       duration := 4
                       segments := [{ start := 0, stop := 1, text := ("first words").toList }] } }

/-- Chunk 1 with a segment inside its logical window. -/
def wC7res1 : ChunkResult :=
  { chunk := c7chunk1
    transcription := { text := ("mid words").toList, language := ("en").toList
                       duration := 12
                       segments := [{ start := 5, stop := 6, text := ("mid words").toList }] } }

/-- Chunk 2 with a segment inside its logical window. -/
def wC7res2 : ChunkResult :=
  { chunk := c7chunk2
    transcription := { text := ("end words").toList, language := ("en").toList
                       duration := 4
                       segments := [{ start := 1, stop := 2, text := ("end words").toList }] } }

theorem splitGo_succ (D C : ℚ) (fuel : ℕ) (t : ℚ) (k : ℕ) :
    splitGo D C (fuel + 1) t k =
      if t < D then planEntry D C t k :: splitGo D C fuel (t + C) (k + 1) else [] := rfl

theorem natCeil_sub_one (x : ℚ) (hx : 0 < x) : ⌈x - 1⌉₊ = ⌈x⌉₊ - 1 := by
  rcases le_or_lt x 1 with h | h
  · have h1 : ⌈x⌉₊ = 1 :=
      le_antisymm (Nat.ceil_le.mpr (by exact_mod_cast h)) (Nat.ceil_pos.mpr hx)
    have h0 : ⌈x - 1⌉₊ = 0 := Nat.ceil_eq_zero.mpr (by linarith)
    omega
  · have h2 : 1 < ⌈x⌉₊ := Nat.lt_ceil.mpr (by exact_mod_cast h)
    have hle : x ≤ (⌈x⌉₊ : ℚ) := Nat.le_ceil x
    have hlt : (⌈x⌉₊ : ℚ) < x + 1 := Nat.ceil_lt_add_one (by linarith)
    rw [Nat.ceil_eq_iff (by omega)]
    constructor
    · push_cast [Nat.cast_sub (by omega : 1 ≤ ⌈x⌉₊ - 1), Nat.cast_sub (by omega : 1 ≤ ⌈x⌉₊)]
      linarith
    · push_cast [Nat.cast_sub (by omega : 1 ≤ ⌈x⌉₊)]
      linarith

theorem splitGo_eq_map (D C : ℚ) (hC : 0 < C) :
    ∀ (fuel : ℕ) (t : ℚ) (k : ℕ), ⌈(D - t) / C⌉₊ ≤ fuel →
      splitGo D C fuel t k =
        (List.range ⌈(D - t) / C⌉₊).map
          (fun (j : ℕ) => planEntry D C (t + (j : ℚ) * C) (k + j)) := by
  intro fuel
  induction fuel with
  | zero =>
    intro t k h
    have h0 : ⌈(D - t) / C⌉₊ = 0 := Nat.le_zero.mp h
    simp [splitGo, h0]
  | succ fuel ih =>
    intro t k h
    by_cases ht : t < D
    · have hpos : 0 < ⌈(D - t) / C⌉₊ :=
        Nat.ceil_pos.mpr (div_pos (by linarith) hC)
      obtain ⟨m, hm⟩ : ∃ m, ⌈(D - t) / C⌉₊ = m + 1 := ⟨⌈(D - t) / C⌉₊ - 1, by omega⟩
      have hshift : (D - (t + C)) / C = (D - t) / C - 1 := by
        field_simp
        ring
      have hm2 : ⌈(D - (t + C)) / C⌉₊ = m := by
        rw [hshift, natCeil_sub_one _ (div_pos (by linarith) hC), hm]
        omega
      rw [splitGo_succ, if_pos ht, hm, ih (t + C) (k + 1) (by omega), hm2,
        List.range_succ_eq_map]
      simp only [List.map_cons, List.map_map]
      congr 1
      · norm_num [planEntry]
      · apply List.map_congr_left
        intro j hj
        simp only [Function.comp_apply, Nat.succ_eq_add_one]
        have ha : t + C + (j : ℚ) * C = t + ((j : ℚ) + 1) * C := by ring
        have hb : ((j + 1 : ℕ) : ℚ) = (j : ℚ) + 1 := by push_cast; ring
        rw [hb, ha]
        congr 1
        omega
    · have h0 : ⌈(D - t) / C⌉₊ = 0 := by
        apply Nat.ceil_eq_zero.mpr
        rw [div_nonpos_iff]
        right
        exact ⟨by linarith, hC.le⟩
      rw [splitGo_succ, if_neg ht, h0]
      simp

theorem splitIntoChunks_eq_map (D C : ℚ) (hC : 0 < C) :
    splitIntoChunks D C =
      (List.range ⌈D / C⌉₊).map (fun (j : ℕ) => planEntry D C ((j : ℚ) * C) j) := by
  rw [splitIntoChunks, splitGo_eq_map D C hC _ 0 0 (by rw [sub_zero]; omega)]
  simp [sub_zero]

theorem splitIntoChunks_get (D C : ℚ) (hC : 0 < C) (i : Fin (splitIntoChunks D C).length) :
    (splitIntoChunks D C).get i = planEntry D C (((i : ℕ) : ℚ) * C) (i : ℕ) := by
  obtain ⟨iv, hi⟩ := i
  have hmap := splitIntoChunks_eq_map D C hC
  simp only [List.get_eq_getElem]
  have hi2 : iv < ((List.range ⌈D / C⌉₊).map
      (fun (j : ℕ) => planEntry D C ((j : ℚ) * C) j)).length := by
    rw [← hmap]; exact hi
  rw [List.getElem_of_eq hmap hi]
  simp [List.getElem_map, List.getElem_range]

theorem splitIntoChunks_length (D C : ℚ) (hC : 0 < C) :
    (splitIntoChunks D C).length = ⌈D / C⌉₊ := by
  rw [splitIntoChunks_eq_map D C hC]
  simp

theorem splitIntoChunks_pairwise (D C : ℚ) (hC : 0 < C) :
    List.Pairwise (fun a b => a.endTime ≤ b.startTime) (splitIntoChunks D C) := by
  rw [splitIntoChunks_eq_map D C hC, List.pairwise_map]
  apply List.Pairwise.imp ?_ (List.pairwise_lt_range _)
  intro a b hab
  show min ((a : ℚ) * C + C) D ≤ (b : ℚ) * C
  calc min ((a : ℚ) * C + C) D ≤ (a : ℚ) * C + C := min_le_left _ _
    _ = ((a : ℚ) + 1) * C := by ring
    _ ≤ (b : ℚ) * C := by
        have hc : ((a : ℚ) + 1) ≤ (b : ℚ) := by exact_mod_cast hab
        exact mul_le_mul_of_nonneg_right hc hC.le

/-- C4.  For every total duration `D > 0` and chunk duration `C > 0`, the
chunk planner returns exactly `⌈D / C⌉` entries; entry `i` carries index
`i`, logical window `[i·C, min((i+1)·C, D))`; consecutive windows are
contiguous, the windows are pairwise non-overlapping, the first starts at
`0` and the last ends at `D` — so together they cover `[0, D)` exactly. -/
theorem claim_C4 (D C : ℚ) (hD : 0 < D) (hC : 0 < C) :
    (splitIntoChunks D C).length = ⌈D / C⌉₊ ∧
    (∀ i : Fin (splitIntoChunks D C).length,
      ((splitIntoChunks D C).get i).index = (i : ℕ) ∧
      ((splitIntoChunks D C).get i).startTime = ((i : ℕ) : ℚ) * C ∧
      ((splitIntoChunks D C).get i).endTime = min ((((i : ℕ) : ℚ) + 1) * C) D) ∧
    (∀ i j : Fin (splitIntoChunks D C).length, (i : ℕ) + 1 = (j : ℕ) →
      ((splitIntoChunks D C).get j).startTime = ((splitIntoChunks D C).get i).endTime) ∧
    List.Pairwise (fun a b => a.endTime ≤ b.startTime) (splitIntoChunks D C) ∧
    (∀ i : Fin (splitIntoChunks D C).length, (i : ℕ) = 0 →
      ((splitIntoChunks D C).get i).startTime = 0) ∧
    (∀ i : Fin (splitIntoChunks D C).length, (i : ℕ) = (splitIntoChunks D C).length - 1 →
      ((splitIntoChunks D C).get i).endTime = D) ∧
    0 < (splitIntoChunks D C).length := by
  have hlen := splitIntoChunks_length D C hC
  have hget := splitIntoChunks_get D C hC
  have hpos : 0 < (splitIntoChunks D C).length := by
    rw [hlen]
    exact Nat.ceil_pos.mpr (div_pos hD hC)
  refine ⟨hlen, ?_, ?_, splitIntoChunks_pairwise D C hC, ?_, ?_, hpos⟩
  · intro i
    rw [hget i]
    refine ⟨rfl, rfl, ?_⟩
    show min (((i : ℕ) : ℚ) * C + C) D = min ((((i : ℕ) : ℚ) + 1) * C) D
    ring_nf
  · intro i j hij
    rw [hget i, hget j]
    show ((j : ℕ) : ℚ) * C = min (((i : ℕ) : ℚ) * C + C) D
    have hjlt : ((j : ℕ) : ℚ) < D / C := by
      have hj : (j : ℕ) < ⌈D / C⌉₊ := by
        have hj0 := j.isLt
        omega
      exact_mod_cast Nat.lt_ceil.mp hj
    have hjD : ((j : ℕ) : ℚ) * C < D := (lt_div_iff₀ hC).mp hjlt
    have hcast : ((j : ℕ) : ℚ) = ((i : ℕ) : ℚ) + 1 := by exact_mod_cast hij.symm
    have h5 : ((i : ℕ) : ℚ) * C + C < D := by
      rw [hcast] at hjD
      nlinarith [hjD]
    rw [min_eq_left h5.le, hcast]
    ring
  · intro i hi
    rw [hget i]
    show ((i : ℕ) : ℚ) * C = 0
    rw [hi]
    norm_num
  · intro i hi
    rw [hget i]
    show min (((i : ℕ) : ℚ) * C + C) D = D
    have hDn : D ≤ (⌈D / C⌉₊ : ℚ) * C := (div_le_iff₀ hC).mp (Nat.le_ceil _)
    have hi1 : (i : ℕ) + 1 = ⌈D / C⌉₊ := by omega
    have hcast : (⌈D / C⌉₊ : ℚ) = ((i : ℕ) : ℚ) + 1 := by exact_mod_cast hi1.symm
    apply min_eq_right
    rw [hcast] at hDn
    nlinarith [hDn]

theorem claim_C4_witness :
    (0 : ℚ) < 5 ∧ (0 : ℚ) < 2 ∧ (splitIntoChunks 5 2).length = ⌈(5 : ℚ) / 2⌉₊ :=
  ⟨by decide, by decide, (claim_C4 5 2 (by decide) (by decide)).1⟩

/-- C8.  The orchestrator deadline is computed from the original file
size in bytes before any conversion: under 10MB gives 5 minutes, 10-30MB
gives 10 minutes, 30-50MB gives 15 minutes, 50-80MB gives 30 minutes, and
80MB or more gives 45 minutes; and whenever `processLargeAudio` chunks, a
file of at least 50MB gets 300-second initial chunks instead of the
600-second default — in particular a 90MB file gets the 45-minute deadline
and 300-second chunks. -/
theorem claim_C8 :
    (∀ sizeBytes : ℚ,
      (sizeBytes / (1024 * 1024) < 10 → calculateTimeout sizeBytes = 5 * 60 * 1000) ∧
      (10 ≤ sizeBytes / (1024 * 1024) → sizeBytes / (1024 * 1024) < 30 →
        calculateTimeout sizeBytes = 10 * 60 * 1000) ∧
      (30 ≤ sizeBytes / (1024 * 1024) → sizeBytes / (1024 * 1024) < 50 →
        calculateTimeout sizeBytes = 15 * 60 * 1000) ∧
      (50 ≤ sizeBytes / (1024 * 1024) → sizeBytes / (1024 * 1024) < 80 →
        calculateTimeout sizeBytes = 30 * 60 * 1000) ∧
      (80 ≤ sizeBytes / (1024 * 1024) → calculateTimeout sizeBytes = 45 * 60 * 1000)) ∧
    (∀ (env : AudioEnv) (dur sz cd : ℚ) (cs : List ChunkEntry),
      processLargeAudio env = .chunking dur sz cd cs →
      (50 ≤ env.sizeMB → cd = 300) ∧ (env.sizeMB < 50 → cd = CHUNK_DURATION_SECONDS)) ∧
    calculateTimeout (90 * 1024 * 1024) = 45 * 60 * 1000 ∧
    (∀ (env : AudioEnv) (dur sz cd : ℚ) (cs : List ChunkEntry), env.sizeMB = 90 →
      processLargeAudio env = .chunking dur sz cd cs → cd = 300) := by
  have hplaChunkDur : ∀ (env : AudioEnv) (dur sz cd : ℚ) (cs : List ChunkEntry),
      processLargeAudio env = .chunking dur sz cd cs →
      cd = if env.sizeMB ≥ 50 then (300 : ℚ) else CHUNK_DURATION_SECONDS := by
    intro env dur sz cd cs h
    by_cases hw : env.wavSizeMB ≤ TARGET_SIZE_MB
    · simp [processLargeAudio, hw] at h
    · simp only [processLargeAudio, if_neg hw, ProcessedAudio.chunking.injEq] at h
      exact h.2.2.1.symm
  refine ⟨?_, ?_, ?_, ?_⟩
  · intro s
    refine ⟨?_, ?_, ?_, ?_, ?_⟩
    · intro h1
      simp [calculateTimeout, h1]
    · intro h1 h2
      have hn : ¬(s / (1024 * 1024) < 10) := by linarith
      simp [calculateTimeout, hn, h2]
    · intro h1 h2
      have hn1 : ¬(s / (1024 * 1024) < 10) := by linarith
      have hn2 : ¬(s / (1024 * 1024) < 30) := by linarith
      simp [calculateTimeout, hn1, hn2, h2]
    · intro h1 h2
      have hn1 : ¬(s / (1024 * 1024) < 10) := by linarith
      have hn2 : ¬(s / (1024 * 1024) < 30) := by linarith
      have hn3 : ¬(s / (1024 * 1024) < 50) := by linarith
      simp [calculateTimeout, hn1, hn2, hn3, h2]
    · intro h1
      have hn1 : ¬(s / (1024 * 1024) < 10) := by linarith
      have hn2 : ¬(s / (1024 * 1024) < 30) := by linarith
      have hn3 : ¬(s / (1024 * 1024) < 50) := by linarith
      have hn4 : ¬(s / (1024 * 1024) < 80) := by linarith
      simp [calculateTimeout, hn1, hn2, hn3, hn4]
  · intro env dur sz cd cs h
    have := hplaChunkDur env dur sz cd cs h
    constructor
    · intro h50
      rw [this, if_pos h50]
    · intro h50
      rw [this, if_neg (by linarith)]
  · have h80 : (80 : ℚ) ≤ (90 * 1024 * 1024 : ℚ) / (1024 * 1024) := by norm_num
    have hn1 : ¬((90 * 1024 * 1024 : ℚ) / (1024 * 1024) < 10) := by norm_num
    have hn2 : ¬((90 * 1024 * 1024 : ℚ) / (1024 * 1024) < 30) := by norm_num
    have hn3 : ¬((90 * 1024 * 1024 : ℚ) / (1024 * 1024) < 50) := by norm_num
    have hn4 : ¬((90 * 1024 * 1024 : ℚ) / (1024 * 1024) < 80) := by norm_num
    simp [calculateTimeout, hn1, hn2, hn3, hn4]
  · intro env dur sz cd cs h90 h
    have := hplaChunkDur env dur sz cd cs h
    rw [this, if_pos (by rw [h90]; norm_num)]

theorem claim_C8_witness :
    (5 * 1024 * 1024 : ℚ) / (1024 * 1024) < 10 ∧
      calculateTimeout (5 * 1024 * 1024) = 5 * 60 * 1000 :=
  ⟨by norm_num, (claim_C8.1 (5 * 1024 * 1024)).1 (by norm_num)⟩

theorem retryAux_length_le (oracle : ℕ → Except ApiError Transcription) :
    ∀ (n attempt : ℕ), (retryAux oracle attempt n).1.length ≤ n := by
  intro n
  induction n with
  | zero => intro attempt; simp [retryAux]
  | succ n ih =>
    intro attempt
    simp only [retryAux]
    split
    · simp
    · split
      · simp
      · simp only [List.length_cons]
        have := ih (attempt + 1)
        omega

theorem retryAux_delays_shape (oracle : ℕ → Except ApiError Transcription) :
    ∀ (n attempt : ℕ), ∃ len, (retryAux oracle attempt n).1 =
      (List.range len).map (fun j => backoffDelay (attempt + j)) := by
  intro n
  induction n with
  | zero => intro attempt; exact ⟨0, by simp [retryAux]⟩
  | succ n ih =>
    intro attempt
    simp only [retryAux]
    split
    · exact ⟨1, by simp [List.range_succ]⟩
    · split
      · exact ⟨1, by simp [List.range_succ]⟩
      · obtain ⟨len, h⟩ := ih (attempt + 1)
        refine ⟨len + 1, ?_⟩
        rw [h, List.range_succ_eq_map, List.map_cons, List.map_map]
        simp only [List.cons.injEq]
        refine ⟨by simp, ?_⟩
        apply List.map_congr_left
        intro j hj
        simp only [Function.comp_apply]
        congr 1
        omega

theorem retryAux_delays (oracle : ℕ → Except ApiError Transcription) (n attempt : ℕ) :
    (retryAux oracle attempt n).1 =
      (List.range (retryAux oracle attempt n).1.length).map
        (fun j => backoffDelay (attempt + j)) := by
  obtain ⟨len, h⟩ := retryAux_delays_shape oracle n attempt
  rw [h]
  simp [List.length_map, List.length_range]

theorem retryAux_all_fail (oracle : ℕ → Except ApiError Transcription) :
    ∀ (n attempt : ℕ),
      (∀ k, attempt ≤ k → k < attempt + n →
        ∃ m, transcribeSingleFile (oracle k) = .error m ∧ m ≠ payloadTooLargeMsg) →
      (retryAux oracle attempt n).2 = .exhausted ∧ (retryAux oracle attempt n).1.length = n := by
  intro n
  induction n with
  | zero => intro attempt _; simp [retryAux]
  | succ n ih =>
    intro attempt h
    obtain ⟨m, hmk, hmp⟩ := h attempt (le_refl _) (by omega)
    simp only [retryAux, hmk, if_neg hmp]
    have := ih (attempt + 1) (fun k hk1 hk2 => h k (by omega) (by omega))
    simp only [List.length_cons]
    exact ⟨this.1, by omega⟩

theorem driveChunk_calls_le (oracle : ℕ → Except ApiError Transcription) (ci : ℕ) :
    (driveChunk oracle ci).calls ≤ 1 + MAX_RETRIES := by
  simp only [driveChunk]
  split
  · simp [MAX_RETRIES]
  · split
    · simp [MAX_RETRIES]
    · show 1 + (retryAux oracle 1 MAX_RETRIES).1.length ≤ 1 + MAX_RETRIES
      have := retryAux_length_le oracle MAX_RETRIES 1
      omega

theorem driveChunk_delays (oracle : ℕ → Except ApiError Transcription) (ci : ℕ) :
    (driveChunk oracle ci).delays =
      (List.range ((driveChunk oracle ci).calls - 1)).map (fun k => 2 ^ (k + 1) * 2500) := by
  simp only [driveChunk]
  split
  · simp
  · split
    · simp
    · simp only [Nat.add_sub_cancel_left]
      rw [retryAux_delays oracle MAX_RETRIES 1]
      simp only [List.length_map, List.length_range]
      apply List.map_congr_left
      intro j hj
      simp only [backoffDelay]
      rw [Nat.add_comm 1 j]

theorem driveChunk_all_fail (oracle : ℕ → Except ApiError Transcription) (ci : ℕ)
    (h : ∀ k, k ≤ MAX_RETRIES →
      ∃ m, transcribeSingleFile (oracle k) = .error m ∧ m ≠ payloadTooLargeMsg) :
    (driveChunk oracle ci).outcome = .fatal (exhaustMsg ci) ∧
      (driveChunk oracle ci).calls = 1 + MAX_RETRIES := by
  obtain ⟨m0, h0, hp0⟩ := h 0 (by omega)
  have hr := retryAux_all_fail oracle MAX_RETRIES 1 (fun k _ hk2 => h k (by omega))
  constructor
  · simp only [driveChunk, h0, if_neg hp0]
    rw [hr.1]
  · simp only [driveChunk, h0, if_neg hp0]
    rw [hr.2]

theorem transcribeChunksGo_fatal (oracle : ℕ → ℕ → Except ApiError Transcription)
    (c : ChunkEntry) (post : List ChunkEntry) (m : List Char) :
    ∀ (pre : List ChunkEntry) (pos : ℕ),
      (∀ j, ∀ hj : j < pre.length,
        ∃ t, (driveChunk (oracle (pos + j)) ((pre.get ⟨j, hj⟩).index)).outcome =
          ChunkOutcome.success t) →
      (driveChunk (oracle (pos + pre.length)) c.index).outcome = .fatal m →
      transcribeChunksGo oracle pos (pre ++ c :: post) = .error m := by
  intro pre
  induction pre with
  | nil =>
    intro pos _ hfatal
    simp only [List.length_nil, Nat.add_zero] at hfatal
    simp only [List.nil_append, transcribeChunksGo, hfatal]
  | cons p pre ih =>
    intro pos hpre hfatal
    obtain ⟨t, ht⟩ := hpre 0 (by simp)
    simp only [Nat.add_zero, List.get_eq_getElem] at ht
    simp only [List.cons_append, transcribeChunksGo]
    have hp : (driveChunk (oracle pos) p.index).outcome = ChunkOutcome.success t := by
      simpa using ht
    rw [hp]
    show (transcribeChunksGo oracle (pos + 1) (pre ++ c :: post)).map
      (fun rs => { chunk := p, transcription := t } :: rs) = .error m
    have hres := ih (pos + 1)
      (fun j hj => by
        have := hpre (j + 1) (by simpa using Nat.succ_lt_succ hj)
        simpa [Nat.add_assoc, Nat.add_comm 1 j] using this)
      (by
        simp only [List.length_cons] at hfatal
        have harith : pos + (pre.length + 1) = pos + 1 + pre.length := by omega
        rw [harith] at hfatal
        exact hfatal)
    rw [hres]
    rfl

/-- C5.  For every chunk, the driver makes at most `1 + MAX_RETRIES` calls
(one initial call plus at most five retries), awaits `2^k * 2500`
milliseconds before retry attempt `k`; if every attempt fails with a
non-payload-too-large error the chunk ends in the fatal exhaustion error
— whose message names the chunk index and which concretely awaits the
delays 5s, 10s, 20s, 40s, 80s — the whole drive fails with that error,
and `transcribeWithRetry` does not catch it (only the re-chunk sentinel
is caught): the run ends with the error after the single drive. -/
theorem claim_C5 :
    (∀ (oracle : ℕ → Except ApiError Transcription) (ci : ℕ),
      (driveChunk oracle ci).calls ≤ 1 + MAX_RETRIES ∧
      (driveChunk oracle ci).delays =
        (List.range ((driveChunk oracle ci).calls - 1)).map (fun k => 2 ^ (k + 1) * 2500) ∧
      ((∀ k, k ≤ MAX_RETRIES →
          ∃ m, transcribeSingleFile (oracle k) = .error m ∧ m ≠ payloadTooLargeMsg) →
        (driveChunk oracle ci).outcome = .fatal (exhaustMsg ci) ∧
        (driveChunk oracle ci).calls = 1 + MAX_RETRIES ∧
        (driveChunk oracle ci).delays = [5000, 10000, 20000, 40000, 80000] ∧
        (Nat.repr ci).toList <:+: exhaustMsg ci)) ∧
    (∀ (oracle : ℕ → ℕ → Except ApiError Transcription) (pre post : List ChunkEntry)
      (c : ChunkEntry) (m : List Char),
      (∀ j, ∀ hj : j < pre.length,
        ∃ t, (driveChunk (oracle j) ((pre.get ⟨j, hj⟩).index)).outcome =
          ChunkOutcome.success t) →
      (driveChunk (oracle pre.length) c.index).outcome = .fatal m →
      transcribeChunks oracle (pre ++ c :: post) = .error m) ∧
    (∀ (env : AudioEnv) (stt : SttOracle) (dur sz d0 : ℚ) (cs : List ChunkEntry)
      (m : List Char),
      processLargeAudio env = .chunking dur sz d0 cs →
      transcribeChunks (stt.drive 0) cs = .error m → m ≠ rechunkNeededMsg →
      transcribeChunkedPhase env stt =
        { attemptedChunkDurations := [d0], result := .error m }) := by
  refine ⟨?_, ?_, ?_⟩
  · intro oracle ci
    refine ⟨driveChunk_calls_le oracle ci, driveChunk_delays oracle ci, ?_⟩
    intro h
    obtain ⟨hout, hcalls⟩ := driveChunk_all_fail oracle ci h
    refine ⟨hout, hcalls, ?_, ?_⟩
    · rw [driveChunk_delays oracle ci, hcalls]
      decide
    · refine ⟨("Failed to transcribe chunk ").toList,
        (" after 5 retries. This may be due to network instability or OpenAI API issues. Try again later or check your internet connection.").toList, ?_⟩
      simp [exhaustMsg]
  · intro oracle pre post c m hpre hfatal
    exact transcribeChunksGo_fatal oracle c post m pre 0
      (fun j hj => by simpa using hpre j hj)
      (by simpa using hfatal)
  · intro env stt dur sz d0 cs m hpla hdrive hm
    simp only [transcribeChunkedPhase, hpla, hdrive, if_neg hm]

theorem claim_C5_witness :
    (∀ k, k ≤ MAX_RETRIES →
      ∃ m, transcribeSingleFile ((fun _ => Except.error
        { status := some 500, code := none, message := ("boom").toList }) k) = .error m ∧
        m ≠ payloadTooLargeMsg) ∧
    (driveChunk (fun _ => Except.error
      { status := some 500, code := none, message := ("boom").toList }) 3).outcome =
        .fatal (exhaustMsg 3) :=
  ⟨fun k _ => ⟨_, rfl, by decide⟩,
    ((claim_C5.1 (fun _ => Except.error
      { status := some 500, code := none, message := ("boom").toList }) 3).2.2
      (fun k _ => ⟨_, rfl, by decide⟩)).1⟩

/-- C2 counterexample.  A chunk whose transcription call always fails with
HTTP 401 (classified `Unauthorized` by `checkAPIQuotaError`) is not
propagated immediately: the driver makes six calls (the initial call and
all five retries) and ends in the generic exhaustion error, not the
authentication message. -/
theorem claim_C2_counterexample :
    checkAPIQuotaError unauthorizedErr = some invalidKeyMsg ∧
    (driveChunk (fun _ => Except.error unauthorizedErr) 0).calls = 6 ∧
    ¬((driveChunk (fun _ => Except.error unauthorizedErr) 0).calls = 1) ∧
    (driveChunk (fun _ => Except.error unauthorizedErr) 0).outcome =
      .fatal (exhaustMsg 0) ∧
    ¬((driveChunk (fun _ => Except.error unauthorizedErr) 0).outcome =
      .fatal invalidKeyMsg) := by
  refine ⟨by decide, by decide, by decide, by decide, by decide⟩

/-- C2 as amended.  An `Unauthorized` or `QuotaExceeded` classification is
not fatal to the driver: every failure other than the payload-too-large
sentinel — including HTTP 401 and 402 — is treated as transient and
retried through the full five-attempt backoff loop, after which the chunk
fails with the generic exhaustion error. -/
theorem claim_C2_amended (e : ApiError) (ci : ℕ)
    (hm : mapTranscribeError e ≠ payloadTooLargeMsg) :
    driveChunk (fun _ => Except.error e) ci =
      { outcome := .fatal (exhaustMsg ci), calls := 1 + MAX_RETRIES,
        delays := [5000, 10000, 20000, 40000, 80000] } := by
  have h : ∀ k, k ≤ MAX_RETRIES →
      ∃ m, transcribeSingleFile ((fun _ => Except.error e) k) = .error m ∧
        m ≠ payloadTooLargeMsg :=
    fun k _ => ⟨mapTranscribeError e, rfl, hm⟩
  obtain ⟨hout, hcalls⟩ := driveChunk_all_fail (fun _ => Except.error e) ci h
  have hdel : (driveChunk (fun _ => Except.error e) ci).delays =
      [5000, 10000, 20000, 40000, 80000] := by
    rw [driveChunk_delays (fun _ => Except.error e) ci, hcalls]
    decide
  cases hdc : driveChunk (fun _ => Except.error e) ci
  rw [hdc] at hout hcalls hdel
  simp only at hout hcalls hdel
  rw [hout, hcalls, hdel]

theorem claim_C2_amended_witness :
    mapTranscribeError quotaErr402 ≠ payloadTooLargeMsg ∧
    driveChunk (fun _ => Except.error quotaErr402) 2 =
      { outcome := .fatal (exhaustMsg 2), calls := 1 + MAX_RETRIES,
        delays := [5000, 10000, 20000, 40000, 80000] } :=
  ⟨by decide, claim_C2_amended quotaErr402 2 (by decide)⟩

theorem driveChunk_ptl (ci : ℕ) :
    driveChunk (fun _ => Except.error payloadTooLargeErr) ci =
      { outcome := .rechunk, calls := 1, delays := [] } := rfl

theorem transcribeChunks_allPtl (oracle : ℕ → ℕ → Except ApiError Transcription)
    (hor : ∀ i k, oracle i k = .error payloadTooLargeErr)
    (c : ChunkEntry) (rest : List ChunkEntry) :
    transcribeChunks oracle (c :: rest) = .error rechunkNeededMsg := by
  have h0 : oracle 0 = fun _ => Except.error payloadTooLargeErr :=
    funext (fun k => hor 0 k)
  simp only [transcribeChunks, transcribeChunksGo, h0, driveChunk_ptl]

theorem processLargeAudio_chunkDur (env : AudioEnv) (dur sz cd : ℚ)
    (cs : List ChunkEntry) (h : processLargeAudio env = .chunking dur sz cd cs) :
    cd = (if env.sizeMB ≥ 50 then (300 : ℚ) else CHUNK_DURATION_SECONDS) ∧
      dur = env.duration ∧ cs = splitIntoChunks env.duration cd := by
  by_cases hw : env.wavSizeMB ≤ TARGET_SIZE_MB
  · simp [processLargeAudio, hw] at h
  · simp only [processLargeAudio, if_neg hw, ProcessedAudio.chunking.injEq] at h
    refine ⟨h.2.2.1.symm, h.1.symm, ?_⟩
    rw [← h.2.2.2, h.2.2.1, h.1]

theorem transcribeChunkedPhase_attempts_le (env : AudioEnv) (stt : SttOracle) :
    (transcribeChunkedPhase env stt).attemptedChunkDurations.length ≤ 2 := by
  simp only [transcribeChunkedPhase]
  repeat' split
  all_goals simp

theorem transcribeWithRetry_attempts_le (env : AudioEnv) (stt : SttOracle) :
    (transcribeWithRetry env stt).attemptedChunkDurations.length ≤ 2 := by
  simp only [transcribeWithRetry]
  split
  · split
    · simp
    · split
      · simp
      · exact transcribeChunkedPhase_attempts_le env stt
  · exact transcribeChunkedPhase_attempts_le env stt

/-- C3 counterexample.  The claim that a re-plan always uses a strictly
smaller chunk duration fails: a 90MB original gets an initial plan with
300-second chunks, and when that plan signals payload-too-large the
re-plan also uses 300 seconds, so the run attempts the durations
`[300, 300]`. -/
theorem claim_C3_counterexample :
    ¬(∀ (env : AudioEnv) (stt : SttOracle) (d0 d1 : ℚ),
        (transcribeWithRetry env stt).attemptedChunkDurations = [d0, d1] → d1 < d0) := by
  intro hclaim
  have hceil : ⌈(600 : ℚ) / 300⌉₊ = 2 := by
    rw [Nat.ceil_eq_iff (by norm_num)]
    norm_num
  have hlen : (splitIntoChunks 600 300).length = 2 := by
    rw [splitIntoChunks_length 600 300 (by norm_num), hceil]
  obtain ⟨c, rest, hcr⟩ :=
    List.exists_cons_of_ne_nil (l := splitIntoChunks 600 300)
      (by intro hnil; rw [hnil] at hlen; simp at hlen)
  have hpla : processLargeAudio largeEnv90 =
      .chunking 600 90 300 (splitIntoChunks 600 300) := by
    have hw : ¬(largeEnv90.wavSizeMB ≤ TARGET_SIZE_MB) := by
      norm_num [largeEnv90, TARGET_SIZE_MB]
    simp only [processLargeAudio, if_neg hw]
    norm_num [largeEnv90]
  have hdrive : ∀ i : ℕ, transcribeChunks (alwaysTooLargeStt.drive i) (c :: rest) =
      .error rechunkNeededMsg :=
    fun i => transcribeChunks_allPtl _ (fun _ _ => rfl) c rest
  have heval : (transcribeWithRetry largeEnv90 alwaysTooLargeStt).attemptedChunkDurations =
      [300, 300] := by
    have hsz : ¬(largeEnv90.sizeMB ≤ SIZE_THRESHOLD_MB) := by
      norm_num [largeEnv90, SIZE_THRESHOLD_MB]
    simp only [transcribeWithRetry, if_neg hsz, transcribeChunkedPhase, hpla, hcr,
      hdrive 0, hdrive 1, if_pos]
  have := hclaim largeEnv90 alwaysTooLargeStt 300 300 heval
  exact absurd this (by norm_num)

/-- C3 as amended.  A run drives at most two plans; when the drive over
the initial plan signals payload-too-large, exactly one re-plan occurs and
its chunk duration is the fixed 300 seconds — strictly smaller than the
initial duration only when the initial duration was the 600-second default
(original under 50MB), and equal to it for a 50MB-or-larger original whose
initial plan already used 300 seconds; a payload-too-large signal on the
second drive makes the whole phase fail with the re-chunk sentinel, and no
third chunk duration is ever attempted. -/
theorem claim_C3_amended :
    (∀ (env : AudioEnv) (stt : SttOracle),
      (transcribeWithRetry env stt).attemptedChunkDurations.length ≤ 2) ∧
    (∀ (env : AudioEnv) (stt : SttOracle) (dur sz d0 : ℚ) (cs : List ChunkEntry),
      processLargeAudio env = .chunking dur sz d0 cs →
      transcribeChunks (stt.drive 0) cs = .error rechunkNeededMsg →
      (transcribeChunkedPhase env stt).attemptedChunkDurations = [d0, 300] ∧
      (env.sizeMB < 50 → d0 = CHUNK_DURATION_SECONDS ∧ (300 : ℚ) < d0) ∧
      (transcribeChunks (stt.drive 1) (splitIntoChunks dur 300) = .error rechunkNeededMsg →
        (transcribeChunkedPhase env stt).result = .error rechunkNeededMsg)) := by
  refine ⟨transcribeWithRetry_attempts_le, ?_⟩
  intro env stt dur sz d0 cs hpla hdrive
  obtain ⟨hcd, hdur, hcs⟩ := processLargeAudio_chunkDur env dur sz d0 cs hpla
  refine ⟨?_, ?_, ?_⟩
  · simp only [transcribeChunkedPhase, hpla, hdrive, if_pos]
    split
    · rfl
    · rfl
  · intro h50
    rw [hcd, if_neg (by linarith)]
    norm_num [CHUNK_DURATION_SECONDS]
  · intro h2
    simp only [transcribeChunkedPhase, hpla, hdrive, if_pos, h2]

theorem claim_C3_amended_witness :
    processLargeAudio mediumEnv40 =
      .chunking 600 40 CHUNK_DURATION_SECONDS (splitIntoChunks 600 600) ∧
    (transcribeChunkedPhase mediumEnv40 alwaysTooLargeStt).attemptedChunkDurations =
      [CHUNK_DURATION_SECONDS, 300] ∧
    (300 : ℚ) < CHUNK_DURATION_SECONDS := by
  have hceil : ⌈(600 : ℚ) / 600⌉₊ = 1 := by
    rw [Nat.ceil_eq_iff (by norm_num)]
    norm_num
  have hlen : (splitIntoChunks 600 600).length = 1 := by
    rw [splitIntoChunks_length 600 600 (by norm_num), hceil]
  obtain ⟨c, rest, hcr⟩ :=
    List.exists_cons_of_ne_nil (l := splitIntoChunks 600 600)
      (by intro hnil; rw [hnil] at hlen; simp at hlen)
  have hpla : processLargeAudio mediumEnv40 =
      .chunking 600 40 CHUNK_DURATION_SECONDS (splitIntoChunks 600 600) := by
    have hw : ¬(mediumEnv40.wavSizeMB ≤ TARGET_SIZE_MB) := by
      norm_num [mediumEnv40, TARGET_SIZE_MB]
    simp only [processLargeAudio, if_neg hw]
    norm_num [mediumEnv40, CHUNK_DURATION_SECONDS]
  have hdrive : transcribeChunks (alwaysTooLargeStt.drive 0) (splitIntoChunks 600 600) =
      .error rechunkNeededMsg := by
    rw [hcr]
    exact transcribeChunks_allPtl _ (fun _ _ => rfl) c rest
  have hmain := (claim_C3_amended.2 mediumEnv40 alwaysTooLargeStt 600 40
    CHUNK_DURATION_SECONDS (splitIntoChunks 600 600) hpla hdrive)
  exact ⟨hpla, hmain.1, (hmain.2.1 (by norm_num [mediumEnv40])).2⟩

/-- C10.  For a file at or under the 24MB direct-transcription threshold,
a direct call failing with the payload-too-large sentinel does not fail
the run: `transcribeWithRetry` falls through to the convert-and-chunk
branch and continues there; any other direct-call error propagates
unchanged, and no chunk plan is ever driven on that path. -/
theorem claim_C10 (env : AudioEnv) (stt : SttOracle)
    (hsize : env.sizeMB ≤ SIZE_THRESHOLD_MB) :
    (transcribeSingleFile stt.direct = .error payloadTooLargeMsg →
      transcribeWithRetry env stt = transcribeChunkedPhase env stt) ∧
    (∀ m : List Char, transcribeSingleFile stt.direct = .error m →
      m ≠ payloadTooLargeMsg →
      transcribeWithRetry env stt =
        { attemptedChunkDurations := [], result := .error m }) := by
  constructor
  · intro hptl
    simp [transcribeWithRetry, if_pos hsize, hptl]
  · intro m herr hm
    simp [transcribeWithRetry, if_pos hsize, herr, hm]

theorem claim_C10_witness :
    smallEnv10.sizeMB ≤ SIZE_THRESHOLD_MB ∧
    transcribeWithRetry smallEnv10 alwaysTooLargeStt =
      transcribeChunkedPhase smallEnv10 alwaysTooLargeStt :=
  ⟨by norm_num [smallEnv10, SIZE_THRESHOLD_MB],
    (claim_C10 smallEnv10 alwaysTooLargeStt
      (by norm_num [smallEnv10, SIZE_THRESHOLD_MB])).1 rfl⟩

/-- C1 is violated by the code: for a 5MB file the deadline is 300000ms;
a pipeline that settles successfully at 300001ms first triggers the
timeout write — the error sentinel with duration 0 — but, because
`withTimeout` races without cancelling, the step-5 update of the abandoned
pipeline then runs and overwrites the sentinel with a full success row, so
the final record state is a success, not the sentinel. -/
theorem claim_C1_bug :
    processMeeting 7 (5 * 1024 * 1024) 300001 (.ok c1Out) c1Row =
      [errorRow c1Row (timeoutMsg 7 300000),
        successRow (errorRow c1Row (timeoutMsg 7 300000)) c1Out] ∧
    (errorRow c1Row (timeoutMsg 7 300000)).duration = 0 ∧
    (errorRow c1Row (timeoutMsg 7 300000)).transcriptSlot =
      some (("ERROR: Meeting 7 processing timed out after 300s").toList) ∧
    finalRow c1Row (processMeeting 7 (5 * 1024 * 1024) 300001 (.ok c1Out) c1Row) =
      successRow (errorRow c1Row (timeoutMsg 7 300000)) c1Out ∧
    (successRow (errorRow c1Row (timeoutMsg 7 300000)) c1Out).transcriptSlot =
      some c1Out.txtPath := by
  have hT : calculateTimeout (5 * 1024 * 1024) = 300000 := by
    have h : (5 * 1024 * 1024 : ℚ) / (1024 * 1024) < 10 := by norm_num
    simp [calculateTimeout, h]
  have htrace : processMeeting 7 (5 * 1024 * 1024) 300001 (.ok c1Out) c1Row =
      [errorRow c1Row (timeoutMsg 7 300000),
        successRow (errorRow c1Row (timeoutMsg 7 300000)) c1Out] := by
    simp only [processMeeting, hT]
    rw [if_neg (by norm_num)]
  refine ⟨htrace, rfl, by decide, ?_, rfl⟩
  rw [finalRow, htrace]
  rfl

theorem foldl_text_eq (rs : List ChunkResult) :
    ∀ a : List Char, rs.foldl (fun acc r => acc ++ r.transcription.text ++ [' ']) a =
      a ++ textConcat (rs.map (fun r => r.transcription.text)) := by
  induction rs with
  | nil => intro a; simp [textConcat]
  | cons r rs ih =>
    intro a
    simp only [List.foldl_cons, List.map_cons, textConcat, ih]
    simp

theorem foldl_segs_eq (rs : List ChunkResult) :
    ∀ a : List TrSegment,
      rs.foldl (fun acc r =>
        acc ++ r.transcription.segments.map (shiftSegment r.chunk.startTime)) a =
      a ++ flatSegs rs := by
  induction rs with
  | nil => intro a; simp [flatSegs]
  | cons r rs ih =>
    intro a
    simp only [List.foldl_cons, flatSegs, ih]
    simp

theorem mergeTranscripts_text (rs : List ChunkResult) :
    (mergeTranscripts rs).text =
      wsNormalize (textConcat (rs.map (fun r => r.transcription.text))) := by
  show wsNormalize (rs.foldl (fun acc r => acc ++ r.transcription.text ++ [' ']) []) = _
  rw [foldl_text_eq rs [], List.nil_append]

theorem mergeTranscripts_segments (rs : List ChunkResult) :
    (mergeTranscripts rs).segments = flatSegs rs := by
  show rs.foldl (fun acc r =>
    acc ++ r.transcription.segments.map (shiftSegment r.chunk.startTime)) [] = _
  rw [foldl_segs_eq rs [], List.nil_append]

theorem mergeTranscripts_duration (rs : List ChunkResult) :
    (mergeTranscripts rs).duration =
      rs.foldl (fun acc r => max acc r.chunk.endTime) 0 := rfl

theorem foldl_max_init_le (rs : List ChunkResult) :
    ∀ a : ℚ, a ≤ rs.foldl (fun acc r => max acc r.chunk.endTime) a := by
  induction rs with
  | nil => intro a; simp
  | cons r rs ih =>
    intro a
    calc a ≤ max a r.chunk.endTime := le_max_left _ _
      _ ≤ rs.foldl (fun acc r => max acc r.chunk.endTime) (max a r.chunk.endTime) := ih _

theorem foldl_max_mem_le (rs : List ChunkResult) :
    ∀ a : ℚ, ∀ r ∈ rs, r.chunk.endTime ≤ rs.foldl (fun acc r => max acc r.chunk.endTime) a := by
  induction rs with
  | nil => intro a r hr; simp at hr
  | cons r0 rs ih =>
    intro a r hr
    rcases List.mem_cons.mp hr with h | h
    · subst h
      calc r.chunk.endTime ≤ max a r.chunk.endTime := le_max_right _ _
        _ ≤ rs.foldl (fun acc r => max acc r.chunk.endTime) (max a r.chunk.endTime) :=
          foldl_max_init_le rs _
    · exact ih _ r h

theorem foldl_max_cases (rs : List ChunkResult) :
    ∀ a : ℚ, rs.foldl (fun acc r => max acc r.chunk.endTime) a = a ∨
      ∃ r ∈ rs, rs.foldl (fun acc r => max acc r.chunk.endTime) a = r.chunk.endTime := by
  induction rs with
  | nil => intro a; left; rfl
  | cons r0 rs ih =>
    intro a
    rcases ih (max a r0.chunk.endTime) with h | ⟨r, hr, h⟩
    · rcases max_choice a r0.chunk.endTime with hm | hm
      · left
        simp only [List.foldl_cons]
        exact h.trans hm
      · right
        exact ⟨r0, List.mem_cons_self _ _, by simp only [List.foldl_cons]; exact h.trans hm⟩
    · right
      exact ⟨r, List.mem_cons_of_mem _ hr, by simp only [List.foldl_cons]; exact h⟩

theorem trimRight_append_space (y : List Char) : trimRight (y ++ [' ']) = trimRight y := by
  simp only [trimRight, List.reverse_append]
  have : ([' '] : List Char).reverse = [' '] := rfl
  rw [this]
  simp [List.dropWhile_cons, isWs]

theorem trim_append_space (x : List Char) : trim (x ++ [' ']) = trim x := by
  simp only [trim, trimLeft, List.dropWhile_append]
  split
  · rename_i hcase
    have hx : List.dropWhile isWs x = [] := by
      simpa [List.isEmpty_iff] using hcase
    rw [hx]
    rfl
  · exact trimRight_append_space _

theorem textConcat_eq_sep (l : List (List Char)) (h : l ≠ []) :
    textConcat l = sepBySpace l ++ [' '] := by
  induction l with
  | nil => exact absurd rfl h
  | cons t ts ih =>
    cases ts with
    | nil => simp [textConcat, sepBySpace]
    | cons t2 ts2 =>
      rw [show textConcat (t :: t2 :: ts2) = t ++ ' ' :: textConcat (t2 :: ts2) from rfl,
        ih (by simp)]
      simp [sepBySpace]

/-- C6.  `mergeTranscripts` is a pure function whose output text is the
chunk texts joined in order with a single intervening space and then
whitespace-normalized, whose segments are exactly the input segments with
`start` and `end` shifted by the `startTime` of the owning chunk, in order,
and whose duration is the maximum chunk `endTime` (for a non-empty input whose
plan windows end at non-negative times). -/
theorem claim_C6 (rs : List ChunkResult) (hne : rs ≠ [])
    (hnn : ∀ r ∈ rs, 0 ≤ r.chunk.endTime) :
    (mergeTranscripts rs).text =
      wsNormalize (sepBySpace (rs.map (fun r => r.transcription.text))) ∧
    (mergeTranscripts rs).segments = flatSegs rs ∧
    (∀ r ∈ rs, r.chunk.endTime ≤ (mergeTranscripts rs).duration) ∧
    (mergeTranscripts rs).duration ∈ rs.map (fun r => r.chunk.endTime) := by
  refine ⟨?_, mergeTranscripts_segments rs, ?_, ?_⟩
  · rw [mergeTranscripts_text,
      textConcat_eq_sep _ (by simpa using hne)]
    show collapseWs (trim _) = collapseWs (trim _)
    rw [trim_append_space]
  · intro r hr
    rw [mergeTranscripts_duration]
    exact foldl_max_mem_le rs 0 r hr
  · rw [mergeTranscripts_duration]
    rcases foldl_max_cases rs 0 with h | ⟨r, hr, h⟩
    · obtain ⟨r0, rs2, rfl⟩ := List.exists_cons_of_ne_nil hne
      have h1 : r0.chunk.endTime ≤ 0 := by
        rw [← h]
        exact foldl_max_mem_le _ 0 r0 (List.mem_cons_self _ _)
      have h2 : 0 ≤ r0.chunk.endTime := hnn r0 (List.mem_cons_self _ _)
      rw [h, show (0 : ℚ) = r0.chunk.endTime from le_antisymm h2 h1]
      exact List.mem_map_of_mem _ (List.mem_cons_self _ _)
    · rw [h]
      exact List.mem_map_of_mem _ hr

theorem claim_C6_witness :
    [wChunkResA, wChunkResB] ≠ [] ∧
    (∀ r ∈ [wChunkResA, wChunkResB], (0 : ℚ) ≤ r.chunk.endTime) ∧
    (mergeTranscripts [wChunkResA, wChunkResB]).duration ∈
      [wChunkResA, wChunkResB].map (fun r => r.chunk.endTime) :=
  ⟨by decide, by decide,
    (claim_C6 [wChunkResA, wChunkResB] (by decide) (by decide)).2.2.2⟩

theorem isWs_space : isWs ' ' = true := rfl

theorem joinW_cons (w : List Char) (ws : List (List Char)) :
    joinW (w :: ws) = w ++ joinTail ws := by
  cases ws with
  | nil => simp [joinW, joinTail]
  | cons x xs => simp [joinW, joinTail]

theorem takeWhile_notWs_of_allWs (b : List Char) (h : b.all isWs) :
    b.takeWhile (fun d => !(isWs d)) = [] := by
  cases b with
  | nil => rfl
  | cons d rest =>
    have hd : isWs d = true := by
      simp [List.all_cons] at h
      exact h.1
    simp [List.takeWhile_cons, hd]

theorem dropWhile_notWs_of_allWs (b : List Char) (h : b.all isWs) :
    b.dropWhile (fun d => !(isWs d)) = b := by
  cases b with
  | nil => rfl
  | cons d rest =>
    have hd : isWs d = true := by
      simp [List.all_cons] at h
      exact h.1
    simp [List.dropWhile_cons, hd]

theorem wordsOf_eq_nil_iff : ∀ l : List Char, wordsOf l = [] ↔ l.all isWs := by
  intro l
  induction l using wordsOf.induct with
  | case1 => simp [wordsOf]
  | case2 c rest h ih =>
    rw [wordsOf, if_pos h]
    simp [h, ih]
  | case3 c rest h ih =>
    rw [wordsOf, if_neg h]
    simp [List.all_cons]
    intro hc
    exact absurd hc h

theorem wordsOf_clean : ∀ (l : List Char) (w : List Char), w ∈ wordsOf l →
    w ≠ [] ∧ w.all (fun d => !(isWs d)) := by
  intro l
  induction l using wordsOf.induct with
  | case1 => intro w hw; simp [wordsOf] at hw
  | case2 c rest h ih =>
    intro w hw
    rw [wordsOf, if_pos h] at hw
    exact ih w hw
  | case3 c rest h ih =>
    intro w hw
    rw [wordsOf, if_neg h] at hw
    rcases List.mem_cons.mp hw with hw | hw
    · subst hw
      refine ⟨by simp, ?_⟩
      simp only [List.all_cons, Bool.and_eq_true]
      refine ⟨by simp [h], ?_⟩
      rw [List.all_eq_true]
      intro x hx
      have := List.mem_takeWhile_imp hx
      simpa using this
    · exact ih w hw

theorem wordsOf_single (w : List Char) (hne : w ≠ [])
    (hclean : w.all (fun d => !(isWs d))) : wordsOf w = [w] := by
  obtain ⟨c, t, rfl⟩ := List.exists_cons_of_ne_nil hne
  have hc : isWs c = false := by
    simp [List.all_cons] at hclean
    simpa using hclean.1
  have ht : t.all (fun d => !(isWs d)) := by
    simp [List.all_cons] at hclean
    rw [List.all_eq_true]
    intro x hx
    simpa using hclean.2 x hx
  rw [wordsOf, if_neg (by simp [hc])]
  rw [List.takeWhile_eq_self_iff.mpr (by intro x hx; exact List.all_eq_true.mp ht x hx)]
  rw [List.dropWhile_eq_nil_iff.mpr (by intro x hx; exact List.all_eq_true.mp ht x hx)]
  simp [wordsOf]

theorem wordsOf_nil : wordsOf [] = [] := by simp [wordsOf]

theorem wordsOf_cons_ws (c : Char) (rest : List Char) (h : isWs c = true) :
    wordsOf (c :: rest) = wordsOf rest := by
  rw [wordsOf, if_pos h]

theorem wordsOf_cons_notWs (c : Char) (rest : List Char) (h : ¬isWs c = true) :
    wordsOf (c :: rest) =
      (c :: rest.takeWhile (fun d => !(isWs d))) ::
        wordsOf (rest.dropWhile (fun d => !(isWs d))) := by
  rw [wordsOf, if_neg h]

theorem wordsOf_append_space : ∀ (a b : List Char),
    wordsOf (a ++ ' ' :: b) = wordsOf a ++ wordsOf b := by
  intro a
  induction a using wordsOf.induct with
  | case1 =>
    intro b
    rw [List.nil_append, wordsOf_cons_ws ' ' b isWs_space, wordsOf_nil, List.nil_append]
  | case2 c rest h ih =>
    intro b
    rw [List.cons_append, wordsOf_cons_ws c (rest ++ ' ' :: b) h, wordsOf_cons_ws c rest h]
    exact ih b
  | case3 c rest h ih =>
    intro b
    rw [List.cons_append, wordsOf_cons_notWs c (rest ++ ' ' :: b) h,
      wordsOf_cons_notWs c rest h]
    by_cases hall : rest.all (fun d => !(isWs d))
    · have htwr : rest.takeWhile (fun d => !(isWs d)) = rest :=
        List.takeWhile_eq_self_iff.mpr (fun x hx => List.all_eq_true.mp hall x hx)
      have hdwr : rest.dropWhile (fun d => !(isWs d)) = [] :=
        List.dropWhile_eq_nil_iff.mpr (fun x hx => List.all_eq_true.mp hall x hx)
      have htw : (rest ++ ' ' :: b).takeWhile (fun d => !(isWs d)) = rest := by
        rw [List.takeWhile_append, if_pos (by rw [htwr])]
        simp [List.takeWhile_cons, isWs_space]
      have hdw : (rest ++ ' ' :: b).dropWhile (fun d => !(isWs d)) = ' ' :: b := by
        rw [List.dropWhile_append, if_pos (by rw [hdwr]; rfl)]
        simp [List.dropWhile_cons, isWs_space]
      rw [htw, hdw, htwr, hdwr, wordsOf_cons_ws ' ' b isWs_space, wordsOf_nil]
      simp
    · have htne : rest.takeWhile (fun d => !(isWs d)) ≠ rest := by
        intro hcon
        exact hall (by
          rw [List.all_eq_true]
          intro x hx
          exact List.takeWhile_eq_self_iff.mp hcon x hx)
      have hdne : rest.dropWhile (fun d => !(isWs d)) ≠ [] := by
        intro hcon
        exact hall (by
          rw [List.all_eq_true]
          intro x hx
          exact List.dropWhile_eq_nil_iff.mp hcon x hx)
      have htw : (rest ++ ' ' :: b).takeWhile (fun d => !(isWs d)) =
          rest.takeWhile (fun d => !(isWs d)) := by
        rw [List.takeWhile_append, if_neg (by
          intro hlen
          exact htne (List.IsPrefix.eq_of_length ( List.takeWhile_prefix _) hlen))]
      have hdw : (rest ++ ' ' :: b).dropWhile (fun d => !(isWs d)) =
          rest.dropWhile (fun d => !(isWs d)) ++ ' ' :: b := by
        rw [List.dropWhile_append, if_neg (by
          intro hcon
          exact hdne (List.isEmpty_iff.mp hcon))]
      rw [htw, hdw, ih b, List.cons_append]

theorem wordsOf_append_allWs : ∀ (a b : List Char), b.all isWs →
    wordsOf (a ++ b) = wordsOf a := by
  intro a
  induction a using wordsOf.induct with
  | case1 =>
    intro b hb
    rw [List.nil_append, wordsOf_nil]
    exact (wordsOf_eq_nil_iff b).mpr hb
  | case2 c rest h ih =>
    intro b hb
    rw [List.cons_append, wordsOf_cons_ws c (rest ++ b) h, wordsOf_cons_ws c rest h]
    exact ih b hb
  | case3 c rest h ih =>
    intro b hb
    rw [List.cons_append, wordsOf_cons_notWs c (rest ++ b) h, wordsOf_cons_notWs c rest h]
    by_cases hall : rest.all (fun d => !(isWs d))
    · have htwr : rest.takeWhile (fun d => !(isWs d)) = rest :=
        List.takeWhile_eq_self_iff.mpr (fun x hx => List.all_eq_true.mp hall x hx)
      have hdwr : rest.dropWhile (fun d => !(isWs d)) = [] :=
        List.dropWhile_eq_nil_iff.mpr (fun x hx => List.all_eq_true.mp hall x hx)
      have htw : (rest ++ b).takeWhile (fun d => !(isWs d)) = rest := by
        rw [List.takeWhile_append, if_pos (by rw [htwr])]
        rw [takeWhile_notWs_of_allWs b hb, List.append_nil]
      have hdw : (rest ++ b).dropWhile (fun d => !(isWs d)) = b := by
        rw [List.dropWhile_append, if_pos (by rw [hdwr]; rfl)]
        exact dropWhile_notWs_of_allWs b hb
      rw [htw, hdw, htwr, hdwr, (wordsOf_eq_nil_iff b).mpr hb, wordsOf_nil]
    · have htne : rest.takeWhile (fun d => !(isWs d)) ≠ rest := by
        intro hcon
        exact hall (by
          rw [List.all_eq_true]
          intro x hx
          exact List.takeWhile_eq_self_iff.mp hcon x hx)
      have hdne : rest.dropWhile (fun d => !(isWs d)) ≠ [] := by
        intro hcon
        exact hall (by
          rw [List.all_eq_true]
          intro x hx
          exact List.dropWhile_eq_nil_iff.mp hcon x hx)
      have htw : (rest ++ b).takeWhile (fun d => !(isWs d)) =
          rest.takeWhile (fun d => !(isWs d)) := by
        rw [List.takeWhile_append, if_neg (by
          intro hlen
          exact htne (List.IsPrefix.eq_of_length ( List.takeWhile_prefix _) hlen))]
      have hdw : (rest ++ b).dropWhile (fun d => !(isWs d)) =
          rest.dropWhile (fun d => !(isWs d)) ++ b := by
        rw [List.dropWhile_append, if_neg (by
          intro hcon
          exact hdne (List.isEmpty_iff.mp hcon))]
      rw [htw, hdw, ih b hb]

theorem wordsOf_joinW : ∀ ws : List (List Char),
    (∀ w ∈ ws, w ≠ [] ∧ w.all (fun d => !(isWs d))) → wordsOf (joinW ws) = ws := by
  intro ws
  induction ws with
  | nil => intro _; simp [joinW, wordsOf]
  | cons w ws ih =>
    intro h
    obtain ⟨hne, hclean⟩ := h w (List.mem_cons_self _ _)
    cases ws with
    | nil =>
      rw [show joinW [w] = w from rfl]
      exact wordsOf_single w hne hclean
    | cons w2 ws2 =>
      rw [show joinW (w :: w2 :: ws2) = w ++ ' ' :: joinW (w2 :: ws2) from rfl,
        wordsOf_append_space, wordsOf_single w hne hclean,
        ih (fun x hx => h x (List.mem_cons_of_mem _ hx))]
      rfl

theorem head?_dropWhile (p : Char → Bool) :
    ∀ (l : List Char) (c : Char), (l.dropWhile p).head? = some c → p c = false := by
  intro l
  induction l with
  | nil => intro c h; simp at h
  | cons d tail ih =>
    intro c h
    by_cases hd : p d
    · rw [List.dropWhile_cons, if_pos hd] at h
      exact ih c h
    · rw [List.dropWhile_cons, if_neg hd] at h
      simp only [List.head?_cons, Option.some.injEq] at h
      rw [← h]
      exact Bool.eq_false_iff.mpr hd

theorem trimRight_noTrail (l : List Char) :
    ∀ c, (trimRight l).getLast? = some c → isWs c = false := by
  intro c h
  rw [trimRight, List.getLast?_reverse] at h
  exact head?_dropWhile isWs l.reverse c h

theorem noTrail_of_cons {c : Char} {rest : List Char}
    (h : ∀ x, (c :: rest).getLast? = some x → isWs x = false) :
    ∀ x, rest.getLast? = some x → isWs x = false := by
  intro x hx
  cases rest with
  | nil => simp at hx
  | cons r0 rr => exact h x (by rw [List.getLast?_cons_cons]; exact hx)

theorem allWs_noTrail_nil (l : List Char) (hall : l.all isWs)
    (hnt : ∀ c, l.getLast? = some c → isWs c = false) : l = [] := by
  by_contra hne
  have hlast := List.getLast?_eq_getLast l hne
  have hmem := List.getLast_mem hne
  have h1 : isWs (l.getLast hne) = true := List.all_eq_true.mp hall _ hmem
  have h2 : isWs (l.getLast hne) = false := hnt _ hlast
  rw [h1] at h2
  exact absurd h2 (by simp)

theorem trimRight_decomp (l : List Char) :
    ∃ s, l = trimRight l ++ s ∧ s.all isWs := by
  refine ⟨(l.reverse.takeWhile isWs).reverse, ?_, ?_⟩
  · conv_lhs => rw [← List.reverse_reverse l,
      ← List.takeWhile_append_dropWhile isWs l.reverse]
    rw [List.reverse_append]
    rfl
  · rw [List.all_eq_true]
    intro x hx
    exact List.mem_takeWhile_imp (List.mem_reverse.mp hx)

theorem wordsOf_trimLeft (l : List Char) : wordsOf (trimLeft l) = wordsOf l := by
  induction l with
  | nil => rfl
  | cons c rest ih =>
    by_cases hc : isWs c
    · rw [trimLeft, List.dropWhile_cons, if_pos hc, wordsOf_cons_ws c rest hc]
      exact ih
    · rw [trimLeft, List.dropWhile_cons, if_neg hc]

theorem wordsOf_trimRight (l : List Char) : wordsOf (trimRight l) = wordsOf l := by
  obtain ⟨s, hd, hall⟩ := trimRight_decomp l
  conv_rhs => rw [hd]
  rw [wordsOf_append_allWs _ s hall]

theorem wordsOf_trim (l : List Char) : wordsOf (trim l) = wordsOf l := by
  rw [trim, wordsOf_trimRight, wordsOf_trimLeft]

theorem trim_head (l : List Char) (c : Char) (h : (trim l).head? = some c) :
    isWs c = false := by
  have hpre : trim l <+: trimLeft l := by
    rw [trim, trimRight]
    have hsuf : (trimLeft l).reverse.dropWhile isWs <:+ (trimLeft l).reverse :=
      List.dropWhile_suffix isWs
    have := hsuf.reverse
    rw [List.reverse_reverse] at this
    exact this
  obtain ⟨t, ht⟩ := hpre
  cases htl : trim l with
  | nil => rw [htl] at h; simp at h
  | cons d x =>
    rw [htl] at h
    simp only [List.head?_cons, Option.some.injEq] at h
    rw [htl] at ht
    have hhead : (trimLeft l).head? = some d := by
      rw [← ht]
      rfl
    have hres := head?_dropWhile isWs l d hhead
    rw [← h]
    exact hres

theorem collapseGo_words (l : List Char) :
    ((∀ c, l.getLast? = some c → isWs c = false) →
      collapseGo true l = joinW (wordsOf l)) ∧
    ((∀ c, l.getLast? = some c → isWs c = false) →
      collapseGo false l = l.takeWhile (fun d => !(isWs d)) ++
        joinTail (wordsOf (l.dropWhile (fun d => !(isWs d))))) := by
  induction l with
  | nil =>
    constructor
    · intro _
      rw [wordsOf_nil]
      rfl
    · intro _
      simp [collapseGo, wordsOf_nil, joinTail]
  | cons c rest ih =>
    constructor
    · intro hl
      by_cases hc : isWs c
      · rw [show collapseGo true (c :: rest) = collapseGo true rest from by
          simp [collapseGo, hc]]
        rw [wordsOf_cons_ws c rest hc]
        exact ih.1 (noTrail_of_cons hl)
      · rw [show collapseGo true (c :: rest) = c :: collapseGo false rest from by
          simp [collapseGo, hc]]
        rw [wordsOf_cons_notWs c rest hc, joinW_cons, ih.2 (noTrail_of_cons hl)]
        rfl
    · intro hl
      by_cases hc : isWs c
      · rw [show collapseGo false (c :: rest) = ' ' :: collapseGo true rest from by
          simp [collapseGo, hc]]
        have htk : (c :: rest).takeWhile (fun d => !(isWs d)) = [] := by
          simp [List.takeWhile_cons, hc]
        have hdr : (c :: rest).dropWhile (fun d => !(isWs d)) = c :: rest := by
          simp [List.dropWhile_cons, hc]
        rw [htk, hdr, List.nil_append, wordsOf_cons_ws c rest hc,
          ih.1 (noTrail_of_cons hl)]
        have hwne : wordsOf rest ≠ [] := by
          intro hcon
          have hallws : rest.all isWs := (wordsOf_eq_nil_iff rest).mp hcon
          have hall2 : (c :: rest).all isWs := by simp [List.all_cons, hc, hallws]
          have := allWs_noTrail_nil (c :: rest) hall2 hl
          simp at this
        obtain ⟨w0, ws0, hws⟩ := List.exists_cons_of_ne_nil hwne
        rw [hws]
        rfl
      · rw [show collapseGo false (c :: rest) = c :: collapseGo false rest from by
          simp [collapseGo, hc]]
        have htk : (c :: rest).takeWhile (fun d => !(isWs d)) =
            c :: rest.takeWhile (fun d => !(isWs d)) := by
          simp [List.takeWhile_cons, hc]
        have hdr : (c :: rest).dropWhile (fun d => !(isWs d)) =
            rest.dropWhile (fun d => !(isWs d)) := by
          simp [List.dropWhile_cons, hc]
        rw [htk, hdr, ih.2 (noTrail_of_cons hl)]
        rfl

theorem wsNormalize_eq_joinW (l : List Char) : wsNormalize l = joinW (wordsOf l) := by
  have hnt : ∀ c, (trim l).getLast? = some c → isWs c = false := by
    rw [trim]
    exact trimRight_noTrail (trimLeft l)
  have h := (collapseGo_words (trim l)).2 hnt
  show collapseGo false (trim l) = _
  rw [h, ← wordsOf_trim l]
  cases htl : trim l with
  | nil =>
    simp [wordsOf_nil, joinTail, joinW]
  | cons d x =>
    have hd : isWs d = false := trim_head l d (by rw [htl]; rfl)
    have hdb : ¬isWs d = true := by simp [hd]
    rw [List.takeWhile_cons, List.dropWhile_cons]
    simp only [hd, Bool.not_false, if_true]
    rw [wordsOf_cons_notWs d x hdb, joinW_cons]

theorem wordsOf_wsNormalize (l : List Char) :
    wordsOf (wsNormalize l) = wordsOf l := by
  rw [wsNormalize_eq_joinW, wordsOf_joinW (wordsOf l) (fun w hw => wordsOf_clean l w hw)]

theorem textConcat_append (a b : List (List Char)) :
    textConcat (a ++ b) = textConcat a ++ textConcat b := by
  induction a with
  | nil => simp [textConcat]
  | cons t ts ih => simp [textConcat, ih]

theorem textConcat_ends_space (l : List (List Char)) (h : l ≠ []) :
    ∃ A, textConcat l = A ++ [' '] := by
  induction l with
  | nil => exact absurd rfl h
  | cons t ts ih =>
    cases ts with
    | nil => exact ⟨t, rfl⟩
    | cons t2 ts2 =>
      obtain ⟨A, hA⟩ := ih (by simp)
      refine ⟨t ++ ' ' :: A, ?_⟩
      rw [show textConcat (t :: t2 :: ts2) = t ++ ' ' :: textConcat (t2 :: ts2) from rfl, hA]
      simp

theorem flatSegs_append (a b : List ChunkResult) :
    flatSegs (a ++ b) = flatSegs a ++ flatSegs b := by
  induction a with
  | nil => simp [flatSegs]
  | cons r rs ih => simp [flatSegs, ih]

theorem map_shiftSegment_zero (l : List TrSegment) : l.map (shiftSegment 0) = l := by
  induction l with
  | nil => rfl
  | cons s rest ih =>
    rw [List.map_cons, ih]
    congr 1
    cases s
    simp [shiftSegment]

theorem mergeTranscripts_language (rs : List ChunkResult) :
    (mergeTranscripts rs).language =
      match rs with
      | [] => ("en").toList
      | r :: _ =>
        if r.transcription.language = [] then ("en").toList
        else r.transcription.language := rfl

theorem wsNormalize_glue (A B : List Char) (hA : ∃ A2, A = A2 ++ [' ']) :
    wsNormalize (wsNormalize A ++ ' ' :: B) = wsNormalize (A ++ B) := by
  obtain ⟨A2, rfl⟩ := hA
  rw [wsNormalize_eq_joinW (wsNormalize (A2 ++ [' ']) ++ ' ' :: B),
    wsNormalize_eq_joinW (A2 ++ [' '] ++ B), wordsOf_append_space,
    wordsOf_wsNormalize, wordsOf_append_allWs A2 [' '] (by decide),
    show (A2 ++ [' ']) ++ B = A2 ++ ' ' :: B from by simp, wordsOf_append_space]

/-- C9.  Merging is associative over chunk order: merging a non-empty
prefix of the chunk results into an intermediate transcript, wrapping it
as a chunk-of-one starting at time zero, and merging it with the remaining
results yields exactly the transcript obtained by merging the whole list
at once — same text, language, duration and segments. -/
theorem claim_C9 (xs ys : List ChunkResult) (hxs : xs ≠ []) :
    mergeTranscripts (mergedAsChunkResult (mergeTranscripts xs) :: ys) =
      mergeTranscripts (xs ++ ys) := by
  apply Transcription.ext
  · -- text
    rw [mergeTranscripts_text, mergeTranscripts_text]
    have hmap : (mergedAsChunkResult (mergeTranscripts xs) :: ys).map
        (fun r => r.transcription.text) =
        (mergeTranscripts xs).text :: ys.map (fun r => r.transcription.text) := rfl
    rw [hmap, List.map_append,
      textConcat_append,
      show textConcat ((mergeTranscripts xs).text ::
        ys.map (fun r => r.transcription.text)) =
        (mergeTranscripts xs).text ++
          ' ' :: textConcat (ys.map (fun r => r.transcription.text)) from rfl,
      mergeTranscripts_text]
    exact wsNormalize_glue _ _
      (textConcat_ends_space _ (by simpa using hxs))
  · -- language
    obtain ⟨x0, xs2, rfl⟩ := List.exists_cons_of_ne_nil hxs
    rw [mergeTranscripts_language, mergeTranscripts_language]
    simp only [List.cons_append]
    have hm1lang : (mergedAsChunkResult (mergeTranscripts (x0 :: xs2))).transcription.language =
        if x0.transcription.language = [] then ("en").toList
        else x0.transcription.language := rfl
    rw [hm1lang]
    have hne2 : (if x0.transcription.language = [] then ("en").toList
        else x0.transcription.language) ≠ [] := by
      by_cases hx0 : x0.transcription.language = []
      · rw [if_pos hx0]
        decide
      · rw [if_neg hx0]
        exact hx0
    rw [if_neg hne2]
  · -- duration
    rw [mergeTranscripts_duration, mergeTranscripts_duration, List.foldl_append,
      ← mergeTranscripts_duration]
    show List.foldl _ (max 0 (mergeTranscripts xs).duration) ys = _
    rw [max_eq_right (by rw [mergeTranscripts_duration]; exact foldl_max_init_le xs 0),
      mergeTranscripts_duration]
  · -- segments
    rw [mergeTranscripts_segments, mergeTranscripts_segments, flatSegs_append,
      show flatSegs (mergedAsChunkResult (mergeTranscripts xs) :: ys) =
        (mergeTranscripts xs).segments.map (shiftSegment 0) ++ flatSegs ys from rfl,
      map_shiftSegment_zero, mergeTranscripts_segments]

theorem claim_C9_witness :
    [wChunkResA] ≠ [] ∧
    mergeTranscripts (mergedAsChunkResult (mergeTranscripts [wChunkResA]) :: [wChunkResB]) =
      mergeTranscripts ([wChunkResA] ++ [wChunkResB]) :=
  ⟨by decide, claim_C9 [wChunkResA] [wChunkResB] (by decide)⟩

theorem splitIntoChunks_22_10 :
    splitIntoChunks 22 10 = [c7chunk0, c7chunk1, c7chunk2] := by
  have hc : ⌈(22 : ℚ) / 10⌉₊ = 3 := by
    rw [Nat.ceil_eq_iff (by norm_num)]
    norm_num
  rw [splitIntoChunks, hc]
  norm_num [splitGo, CHUNK_OVERLAP_SECONDS, c7chunk0, c7chunk1, c7chunk2]

/-- C7 counterexample.  Merged segment order is not globally
non-decreasing: with the plan for a 22-second recording at 10-second
chunks, a segment of chunk 1 transcribed at local time 11 (legitimate,
since the materialized overlap-widened audio of chunk 1 is 12 seconds long) is
shifted to global time 21, after the first segment of chunk 2 at global time
20, even though the segments of every chunk are sorted and within the
materialized audio. -/
theorem claim_C7_counterexample :
    ¬(∀ (D C : ℚ), 0 < D → 0 < C → ∀ rs : List ChunkResult,
      rs.map (fun r => r.chunk) = splitIntoChunks D C →
      (∀ r ∈ rs, r.transcription.segments.Pairwise (fun a b => a.start ≤ b.start)) →
      (∀ r ∈ rs, ∀ s ∈ r.transcription.segments,
        0 ≤ s.start ∧ s.start ≤ r.chunk.seekDuration) →
      (mergeTranscripts rs).segments.Pairwise (fun a b => a.start ≤ b.start)) := by
  intro h
  have hplan : [c7res0, c7res1, c7res2].map (fun r => r.chunk) =
      splitIntoChunks 22 10 := by
    rw [splitIntoChunks_22_10]
    rfl
  have hcon := h 22 10 (by norm_num) (by norm_num) [c7res0, c7res1, c7res2] hplan
    (by
      intro r hr
      fin_cases hr <;> simp [c7res0, c7res1, c7res2])
    (by
      intro r hr s hs
      fin_cases hr
      · simp [c7res0] at hs
      · simp [c7res1] at hs
        subst hs
        constructor <;> norm_num [c7res1, c7chunk1]
      · simp [c7res2] at hs
        subst hs
        constructor <;> norm_num [c7res2, c7chunk2])
  rw [mergeTranscripts_segments] at hcon
  simp only [flatSegs, c7res0, c7res1, c7res2, c7chunk0, c7chunk1, c7chunk2,
    shiftSegment, List.map_nil, List.map_cons, List.nil_append, List.append_nil,
    List.cons_append, List.pairwise_cons] at hcon
  have hle := hcon.1 _ (List.mem_cons_self _ _)
  norm_num at hle

theorem mem_flatSegs (rs : List ChunkResult) (b : TrSegment) (hb : b ∈ flatSegs rs) :
    ∃ r ∈ rs, ∃ s ∈ r.transcription.segments, b = shiftSegment r.chunk.startTime s := by
  induction rs with
  | nil => simp [flatSegs] at hb
  | cons r rest ih =>
    rw [show flatSegs (r :: rest) =
      r.transcription.segments.map (shiftSegment r.chunk.startTime) ++ flatSegs rest
      from rfl] at hb
    rcases List.mem_append.mp hb with h | h
    · obtain ⟨s, hs, hb2⟩ := List.mem_map.mp h
      exact ⟨r, List.mem_cons_self _ _, s, hs, hb2.symm⟩
    · obtain ⟨r2, hr2, s2, hs2, hb2⟩ := ih h
      exact ⟨r2, List.mem_cons_of_mem _ hr2, s2, hs2, hb2⟩

theorem flatSegs_sorted (rs : List ChunkResult)
    (hord : rs.Pairwise (fun a b => a.chunk.endTime ≤ b.chunk.startTime))
    (hsorted : ∀ r ∈ rs, r.transcription.segments.Pairwise (fun a b => a.start ≤ b.start))
    (hbound : ∀ r ∈ rs, ∀ s ∈ r.transcription.segments,
      0 ≤ s.start ∧ r.chunk.startTime + s.start ≤ r.chunk.endTime) :
    (flatSegs rs).Pairwise (fun a b => a.start ≤ b.start) := by
  induction rs with
  | nil => simp [flatSegs]
  | cons r rest ih =>
    rw [show flatSegs (r :: rest) =
      r.transcription.segments.map (shiftSegment r.chunk.startTime) ++ flatSegs rest
      from rfl, List.pairwise_append]
    obtain ⟨hhead, htail⟩ := List.pairwise_cons.mp hord
    refine ⟨?_, ih htail (fun x hx => hsorted x (List.mem_cons_of_mem _ hx))
      (fun x hx => hbound x (List.mem_cons_of_mem _ hx)), ?_⟩
    · rw [List.pairwise_map]
      apply List.Pairwise.imp ?_ (hsorted r (List.mem_cons_self _ _))
      intro a b hab
      simp only [shiftSegment]
      linarith
    · intro a ha b hb
      obtain ⟨s, hs, hshift⟩ := List.mem_map.mp ha
      obtain ⟨r2, hr2, s2, hs2, hb2⟩ := mem_flatSegs rest b hb
      have h1 := (hbound r (List.mem_cons_self _ _) s hs).2
      have h2 := (hbound r2 (List.mem_cons_of_mem _ hr2) s2 hs2).1
      have h3 := hhead r2 hr2
      rw [← hshift, hb2]
      simp only [shiftSegment]
      linarith

theorem plan_start_add_duration (D C : ℚ) (hC : 0 < C) :
    ∀ e ∈ splitIntoChunks D C, e.startTime + e.duration = e.endTime := by
  intro e he
  rw [splitIntoChunks_eq_map D C hC] at he
  obtain ⟨j, hj, hje⟩ := List.mem_map.mp he
  rw [← hje]
  simp [planEntry]

/-- C7 as amended.  When the chunk results come from a chunk plan in index
order, the segments of each chunk are locally sorted by start, and every
segment starts within the logical window of the chunk (local start between 0
and the logical chunk duration — rather than anywhere in the
overlap-widened materialized audio), the merged segment sequence is
non-decreasing in global start.  (The counterexample shows the bound on
the logical window is necessary: a segment transcribed in the
overlap-carried tail of a chunk can land after the first segment of the next
segment.) -/
theorem claim_C7_amended (D C : ℚ) (hD : 0 < D) (hC : 0 < C)
    (rs : List ChunkResult)
    (hplan : rs.map (fun r => r.chunk) = splitIntoChunks D C)
    (hsorted : ∀ r ∈ rs, r.transcription.segments.Pairwise (fun a b => a.start ≤ b.start))
    (hbound : ∀ r ∈ rs, ∀ s ∈ r.transcription.segments,
      0 ≤ s.start ∧ s.start ≤ r.chunk.duration) :
    (mergeTranscripts rs).segments.Pairwise (fun a b => a.start ≤ b.start) := by
  rw [mergeTranscripts_segments]
  have hord : rs.Pairwise (fun a b => a.chunk.endTime ≤ b.chunk.startTime) := by
    have hp := splitIntoChunks_pairwise D C hC
    rw [← hplan, List.pairwise_map] at hp
    exact hp
  apply flatSegs_sorted rs hord hsorted
  intro r hr s hs
  have hmem : r.chunk ∈ splitIntoChunks D C := by
    rw [← hplan]
    exact List.mem_map_of_mem _ hr
  have hd := plan_start_add_duration D C hC r.chunk hmem
  obtain ⟨h1, h2⟩ := hbound r hr s hs
  exact ⟨h1, by linarith⟩

theorem claim_C7_amended_witness :
    (mergeTranscripts [c7res0, wC7res1, wC7res2]).segments.Pairwise
      (fun a b => a.start ≤ b.start) := by
  apply claim_C7_amended 22 10 (by norm_num) (by norm_num)
  · rw [splitIntoChunks_22_10]
    rfl
  · intro r hr
    fin_cases hr <;> simp [c7res0, wC7res1, wC7res2]
  · intro r hr s hs
    fin_cases hr
    · simp [c7res0] at hs
    · simp [wC7res1] at hs
      subst hs
      constructor <;> norm_num [wC7res1, c7chunk1]
    · simp [wC7res2] at hs
      subst hs
      constructor <;> norm_num [wC7res2, c7chunk2]
